import Mathlib

/-!
Verification of `data_structures/multi_layer_cluster.py`.

The module clusters k-dimensional points drawn from several layers: a scipy
`KDTree` per nonempty layer answers radius queries, `cluster_all_layers`
accumulates a global adjacency list over the concatenation of all layers, and
`compress_match` folds that list into a union-find structure and reads off the
partition.  The embedding below follows the Python source line by line; scipy's
`KDTree` is embedded through its observable contract (inclusive Euclidean
radius search, dimensionality checks), with coordinates as exact rationals.
-/

namespace MLCluster

/-- A point: a k-dimensional coordinate (a Python tuple of floats, embedded as
exact rationals). -/
abbrev Point := List ℚ

/-- A layer: an ordered list of points (`List[tuple]` in the source). -/
abbrev Layer := List Point

/-- Squared Euclidean distance between two points of equal dimension. -/
def dist2 (p q : Point) : ℚ :=
  (List.zipWith (fun a b => (a - b) * (a - b)) p q).sum

/-- scipy's radius test: `q` matches `p` at radius `r` iff the Euclidean
distance is at most `r`.  Stated on squared distances so the test is exact
over ℚ; for a negative radius nothing matches (no distance is ≤ a negative
number). -/
def withinBall (p q : Point) (r : ℚ) : Bool :=
  decide (0 ≤ r) && decide (dist2 p q ≤ r * r)

/-- `spatial.KDTree(layer)` requires a rectangular array: all points of the
layer share one dimension (a ragged list raises in the source). -/
def uniformDim : Layer → Bool
  | [] => true
  | p :: ps => ps.all (fun q => decide (q.length = p.length))

/-- Dimension of the layer a KDTree was built over. -/
def layerDim : Layer → Nat
  | [] => 0
  | p :: _ => p.length

/-- Model of `spatial.KDTree`: the point list it was built over; construction checks
rectangularity. -/
def kdTree (layer : Layer) : Except Unit Layer :=
  if uniformDim layer then Except.ok layer else Except.error ()

/-- Observable result of `a.query_ball_tree(b, r)`: for each point of `a`, the
indices of the points of `b` within distance `r` (inclusive). -/
def queryBallLocal (a b : Layer) (r : ℚ) : List (List Nat) :=
  a.map (fun p => (List.range b.length).filter (fun j => withinBall p (b.getD j []) r))

/-- `query_ball_tree` raises when the two trees have different
dimensionality. -/
def queryBallTree (a b : Layer) (r : ℚ) : Except Unit (List (List Nat)) :=
  if layerDim a = layerDim b then Except.ok (queryBallLocal a b r) else Except.error ()

/-- Model of `_shift_idx`: shift every index in every sublist of `match_ij` by
`start_idx`. -/
def shiftIdx (match_ij : List (List Nat)) (start_idx : Nat) : List (List Nat) :=
  match_ij.map (fun match_i => match_i.map (fun m => m + start_idx))

/-- The `self.*` fields of a `MultiLayerCluster` instance. -/
structure MultiLayerCluster where
  layers : List Layer
  match_all_layers : List (List Nat)
  layers_combined : List Point
  layer_start_idx : List Nat
  layers_tree : List (Option Layer)
  num_layers : Nat

/-- The `__init__` loop: per layer, record the running offset
(`len(self.layers_combined)` so far, threaded as `acc`) and build a KDTree
when the layer is nonempty (`None` otherwise). -/
def buildLoop (acc : Nat) : List Layer → Except Unit (List Nat × List (Option Layer))
  | [] => Except.ok ([], [])
  | layer :: rest => do
      let tree ← if layer.length > 0 then do
          let t ← kdTree layer
          pure (some t)
        else pure (none : Option Layer)
      let (starts, trees) ← buildLoop (acc + layer.length) rest
      Except.ok (acc :: starts, tree :: trees)

/-- Model of `MultiLayerCluster.__init__`. -/
def MultiLayerCluster.mk' (layers : List Layer) : Except Unit MultiLayerCluster := do
  let (starts, trees) ← buildLoop 0 layers
  Except.ok ⟨layers, [], layers.flatten, starts, trees, layers.length⟩

/-- Inner `for j in range(i + 1, num_layers)` loop of `cluster_all_layers`:
`rest` holds the pairs `(layers_tree[j], layer_start_idx[j])` of the layers
after `i`; `ti` is layer `i`'s tree, so `ti.length = len(self.layers[i])`. -/
def innerLoop (ti : Layer) (other_r : ℚ) (match_i : List (List Nat)) :
    List (Option Layer × Nat) → Except Unit (List (List Nat))
  | [] => Except.ok match_i
  | (tree_j, sj) :: rest => do
      let match_ij ← match tree_j with
        | some tj => queryBallTree ti tj other_r
        | none => Except.ok (List.replicate ti.length ([] : List Nat))
      let match_ij := shiftIdx match_ij sj
      let match_i := (List.range ti.length).map (fun k => match_i.getD k [] ++ match_ij.getD k [])
      innerLoop ti other_r match_i rest

/-- Outer `for i in range(num_layers)` loop: each step computes layer `i`'s
block `match_i` ( `[]` for an absent tree) and appends it, exactly as
`self.match_all_layers += match_i`. -/
def clusterLoop (self_r other_r : ℚ) : List (Option Layer × Nat) → Except Unit (List (List Nat))
  | [] => Except.ok []
  | (tree_i, si) :: rest => do
      let match_i ← match tree_i with
        | some ti => do
            let match_ii ← queryBallTree ti ti self_r
            innerLoop ti other_r (shiftIdx match_ii si) rest
        | none => Except.ok ([] : List (List Nat))
      let tail ← clusterLoop self_r other_r rest
      Except.ok (match_i ++ tail)

/-- Model of `MultiLayerCluster.cluster_all_layers`: appends the freshly computed
per-point neighbour lists to `self.match_all_layers` and returns the whole
stored list together with the updated state.  (When the source raises
mid-loop it leaves a partial append behind; that post-error state is not
modelled, as no claim observes state after an error.) -/
def MultiLayerCluster.cluster_all_layers (st : MultiLayerCluster) (self_r other_r : ℚ) :
    Except Unit (List (List Nat) × MultiLayerCluster) := do
  let newMatches ← clusterLoop self_r other_r (st.layers_tree.zip st.layer_start_idx)
  let m := st.match_all_layers ++ newMatches
  Except.ok (m, ⟨st.layers, m, st.layers_combined, st.layer_start_idx, st.layers_tree, st.num_layers⟩)

/-- Modelled from the spec: the class `UnionFind` is imported from
`data_structures.union_find`, a file absent from the sources.  Spec §4.4 fixes
its observable contract: universe `0..n-1`, initially every index a singleton,
`union` merges two sets (idempotent, no error on `a == b`), `find` returns a
canonical root whose numeric choice is an implementation detail, and
`list_unions` maps each distinct root to the members with that root in
increasing index order.  The state is modelled as the fully compressed root
assignment — one valid union/find strategy; the spec's path-compression/rank
requirement is a performance property with no observable content. -/
structure UnionFind where
  n : Nat
  root : List Nat

/-- Constructor `UnionFind(n)`: every index its own root. -/
def UnionFind.start (n : Nat) : UnionFind := ⟨n, List.range n⟩

/-- Operation `find(a)`: the stored root of `a` (out-of-universe indices are their own
root). -/
def UnionFind.find (uf : UnionFind) (a : Nat) : Nat := uf.root.getD a a

/-- Operation `union(a, b)`: merge the set rooted at `find a` into the one rooted at
`find b`. -/
def UnionFind.union (uf : UnionFind) (a b : Nat) : UnionFind :=
  let ra := uf.find a
  let rb := uf.find b
  if ra = rb then uf else ⟨uf.n, uf.root.map (fun r => if r = ra then rb else r)⟩

/-- Operation `list_unions()`: each distinct root, mapped to the ordered list of
universe members having that root. -/
def UnionFind.list_unions (uf : UnionFind) : List (Nat × List Nat) :=
  (((List.range uf.n).map uf.find).dedup).map
    (fun r => (r, (List.range uf.n).filter (fun i => decide (uf.find i = r))))

/-- Model of `MultiLayerCluster.compress_match`: build a `UnionFind` over
`len(self.match_all_layers)`, union every point with each of its stored
matches, and list the resulting groups. -/
def MultiLayerCluster.compress_match (st : MultiLayerCluster) : List (Nat × List Nat) :=
  let uf := st.match_all_layers.enum.foldl
    (fun uf ic => ic.2.foldl (fun uf j => uf.union ic.1 j) uf)
    (UnionFind.start st.match_all_layers.length)
  uf.list_unions

/-- One `cluster_all_layers` call on a freshly constructed instance; returns
the match list. -/
def runCluster (layers : List Layer) (s o : ℚ) : Except Unit (List (List Nat)) := do
  let st ← MultiLayerCluster.mk' layers
  let (m, _) ← st.cluster_all_layers s o
  pure m

/-- One `cluster_all_layers` call on a fresh instance, then
`compress_match`. -/
def runPartition (layers : List Layer) (s o : ℚ) : Except Unit (List (Nat × List Nat)) := do
  let st ← MultiLayerCluster.mk' layers
  let (_, st1) ← st.cluster_all_layers s o
  pure st1.compress_match

/-- Total number of input points across all layers. -/
def totalPoints (layers : List Layer) : Nat := (layers.map List.length).sum

/-- Predicate: `i` and `j` are members of a common cluster of the partition `part`. -/
def inSameCluster (part : List (Nat × List Nat)) (i j : Nat) : Prop :=
  ∃ g ∈ part, i ∈ g.2 ∧ j ∈ g.2

/-- The `__main__` scenario's layers: `[(1,1),(2,2),(3,3)]`,
`[(1.1,1.1),(0.9,0.9),(2.1,2.1),(3.2,3.2)]`, `[]`, `[(1.15,1.15),(3.1,3.1)]`. -/
def scenarioLayers : List Layer :=
  [[[1, 1], [2, 2], [3, 3]],
   [[11/10, 11/10], [9/10, 9/10], [21/10, 21/10], [16/5, 16/5]],
   [],
   [[23/20, 23/20], [31/10, 31/10]]]

/-! ### Derived descriptions of the constructor's output -/

/-- The tree slot `__init__` stores for one layer: the layer itself when
nonempty, `None` otherwise. -/
def treeOf (l : Layer) : Option Layer := if l.length > 0 then some l else none

/-- The start offsets `__init__` computes, beginning at running total `acc`. -/
def startsFrom (acc : Nat) : List Layer → List Nat
  | [] => []
  | l :: ls => acc :: startsFrom (acc + l.length) ls

/-- Start offset of layer `l`'s slice of global indices, for layers laid out
from running total `acc`. -/
def sliceStart (acc : Nat) (layers : List Layer) (l : Nat) : Nat :=
  acc + totalPoints (layers.take l)

/-- Two indices share a root. -/
def UnionFind.sameSet (uf : UnionFind) (i j : Nat) : Prop := uf.find i = uf.find j

/-- Well-formedness of a union-find state: the root table covers the universe
and every stored root is inside the universe. -/
def ufInv (uf : UnionFind) : Prop :=
  uf.root.length = uf.n ∧ ∀ r ∈ uf.root, r < uf.n

/-- Fold a list of union operations over a union-find state, in order. -/
def ufProcess (uf : UnionFind) : List (Nat × Nat) → UnionFind
  | [] => uf
  | ab :: rest => ufProcess (uf.union ab.1 ab.2) rest

/-- The union operations `compress_match` performs, in order: every point
index paired with each entry of its stored neighbour list. -/
def pairsOf (m : List (List Nat)) : List (Nat × Nat) :=
  (m.enum.map (fun ic => ic.2.map (fun j => (ic.1, j)))).flatten

/-- A small concrete input used to instantiate the general theorems: two
one-point layers. -/
def wLayers : List Layer := [[[0, 0]], [[1, 1]]]

/-- The state `__init__` produces for `wLayers`. -/
def wSt : MultiLayerCluster :=
  ⟨wLayers, [], wLayers.flatten, startsFrom 0 wLayers, wLayers.map treeOf,
    wLayers.length⟩

/-- The match list one `cluster_all_layers(1, 1)` call computes on `wSt`:
the two points are `√2` apart, so each matches only itself. -/
def wMatches : List (List Nat) := [[0], [1]]

/-- The state after that call. -/
def wSt2 : MultiLayerCluster :=
  ⟨wLayers, wMatches, wLayers.flatten, startsFrom 0 wLayers, wLayers.map treeOf,
    wLayers.length⟩

/-- The state after a second identical call: the match list is appended
again. -/
def wSt3 : MultiLayerCluster :=
  ⟨wLayers, wMatches ++ wMatches, wLayers.flatten, startsFrom 0 wLayers,
    wLayers.map treeOf, wLayers.length⟩

/-- The match list one `cluster_all_layers(2, 2)` call computes on `wSt`:
radius 2 exceeds the distance `√2`, so the first point also matches the
second. -/
def wMatchesBig : List (List Nat) := [[0, 1], [1]]

/-- The state after that wider call. -/
def wSt2big : MultiLayerCluster :=
  ⟨wLayers, wMatchesBig, wLayers.flatten, startsFrom 0 wLayers, wLayers.map treeOf,
    wLayers.length⟩

end MLCluster

deriving instance DecidableEq for Except

deriving instance DecidableEq for MLCluster.MultiLayerCluster

namespace MLCluster

theorem buildLoop_ok (layers : List Layer) (acc : Nat)
    (h : ∀ l ∈ layers, uniformDim l = true) :
    buildLoop acc layers = Except.ok (startsFrom acc layers, layers.map treeOf) := by
  induction layers generalizing acc with
  | nil => rfl
  | cons l ls ih =>
      have hl : uniformDim l = true := h l (by simp)
      have hls : ∀ x ∈ ls, uniformDim x = true := fun x hx => h x (by simp [hx])
      simp only [buildLoop, startsFrom, List.map, treeOf]
      by_cases hlen : l.length > 0
      · simp only [if_pos hlen, kdTree, hl, if_pos, ih (acc + l.length) hls]
        rfl
      · simp only [if_neg hlen, ih (acc + l.length) hls]
        rfl

theorem mk'_ok (layers : List Layer) (h : ∀ l ∈ layers, uniformDim l = true) :
    MultiLayerCluster.mk' layers =
      Except.ok ⟨layers, [], layers.flatten, startsFrom 0 layers, layers.map treeOf,
        layers.length⟩ := by
  simp only [MultiLayerCluster.mk', buildLoop_ok layers 0 h]
  rfl

theorem buildLoop_error (layers : List Layer) (acc : Nat)
    (h : ¬ ∀ l ∈ layers, uniformDim l = true) :
    buildLoop acc layers = Except.error () := by
  induction layers generalizing acc with
  | nil => exact absurd (by simp) h
  | cons l ls ih =>
      simp only [buildLoop]
      by_cases hl : uniformDim l = true
      · have hls : ¬ ∀ x ∈ ls, uniformDim x = true := by
          intro hc
          exact h (by
            intro x hx
            rcases List.mem_cons.1 hx with hx | hx
            · exact hx ▸ hl
            · exact hc x hx)
        by_cases hlen : l.length > 0
        · simp only [if_pos hlen, kdTree, if_pos hl, ih (acc + l.length) hls]
          rfl
        · simp only [if_neg hlen, ih (acc + l.length) hls]
          rfl
      · have hlen : l.length > 0 := by
          cases l with
          | nil => exact absurd rfl hl
          | cons p ps => simp
        simp only [if_pos hlen, kdTree, if_neg hl]
        rfl

/-- Construction succeeds exactly when every layer is rectangular. -/
theorem mk'_isOk_iff (layers : List Layer) :
    (∃ st, MultiLayerCluster.mk' layers = Except.ok st) ↔
      ∀ l ∈ layers, uniformDim l = true := by
  constructor
  · rintro ⟨st, hst⟩
    by_contra h
    rw [MultiLayerCluster.mk', buildLoop_error layers 0 h] at hst
    exact Except.noConfusion hst
  · intro h
    exact ⟨_, mk'_ok layers h⟩

theorem startsFrom_length (ls : List Layer) (acc : Nat) :
    (startsFrom acc ls).length = ls.length := by
  induction ls generalizing acc with
  | nil => rfl
  | cons l ls ih => simp [startsFrom, ih]

theorem totalPoints_nil : totalPoints [] = 0 := rfl

theorem totalPoints_cons (l : Layer) (ls : List Layer) :
    totalPoints (l :: ls) = l.length + totalPoints ls := by
  simp [totalPoints]

theorem totalPoints_append (a b : List Layer) :
    totalPoints (a ++ b) = totalPoints a + totalPoints b := by
  simp [totalPoints]

theorem startsFrom_getD (ls : List Layer) (acc i : Nat) (h : i < ls.length) :
    (startsFrom acc ls).getD i 0 = acc + totalPoints (ls.take i) := by
  induction ls generalizing acc i with
  | nil => simp at h
  | cons l ls ih =>
      cases i with
      | zero => simp [startsFrom, totalPoints]
      | succ i =>
          have h' : i < ls.length := by simpa using h
          simp only [startsFrom, List.getD_cons_succ, ih (acc + l.length) i h',
            List.take_succ_cons, totalPoints_cons]
          omega

theorem startsFrom_mem_le (ls : List Layer) (acc x : Nat) (hx : x ∈ startsFrom acc ls) :
    acc ≤ x := by
  induction ls generalizing acc with
  | nil => simp [startsFrom] at hx
  | cons l ls ih =>
      rcases List.mem_cons.1 hx with h | h
      · omega
      · have := ih (acc + l.length) h
        omega

theorem startsFrom_pairwise (ls : List Layer) (acc : Nat) :
    (startsFrom acc ls).Pairwise (· ≤ ·) := by
  induction ls generalizing acc with
  | nil => exact List.Pairwise.nil
  | cons l ls ih =>
      refine List.Pairwise.cons ?_ (ih (acc + l.length))
      intro x hx
      have := startsFrom_mem_le ls (acc + l.length) x hx
      omega

theorem getD_range_map (f : Nat → List Nat) (len k : Nat) (h : k < len) :
    ((List.range len).map f).getD k [] = f k := by
  rw [List.getD_eq_getElem?_getD, List.getElem?_map, List.getElem?_range h]
  rfl

theorem getD_eq_nil_of_le (m : List (List Nat)) (k : Nat) (h : m.length ≤ k) :
    m.getD k [] = [] := by
  rw [List.getD_eq_getElem?_getD, List.getElem?_eq_none (by omega)]
  rfl

theorem shiftIdx_getD (m : List (List Nat)) (s k : Nat) :
    (shiftIdx m s).getD k [] = (m.getD k []).map (fun x => x + s) := by
  simp only [shiftIdx, List.getD_eq_getElem?_getD, List.getElem?_map]
  cases m[k]? <;> rfl

theorem shiftIdx_length (m : List (List Nat)) (s : Nat) :
    (shiftIdx m s).length = m.length := by
  simp [shiftIdx]

theorem replicate_getD_nil (n k : Nat) :
    (List.replicate n ([] : List Nat)).getD k [] = [] := by
  rw [List.getD_eq_getElem?_getD, List.getElem?_replicate]
  split <;> rfl

theorem queryBallLocal_length (a b : Layer) (r : ℚ) :
    (queryBallLocal a b r).length = a.length := by
  simp [queryBallLocal]

theorem queryBallLocal_getD (a b : Layer) (r : ℚ) (k : Nat) (h : k < a.length) :
    (queryBallLocal a b r).getD k [] =
      (List.range b.length).filter (fun j => withinBall (a.getD k []) (b.getD j []) r) := by
  simp only [queryBallLocal, List.getD_eq_getElem?_getD, List.getElem?_map,
    List.getElem?_eq_getElem h]
  simp [List.getD_eq_getElem?_getD, List.getElem?_eq_getElem h]

theorem mem_queryBallLocal_getD (a b : Layer) (r : ℚ) (k j : Nat) (h : k < a.length) :
    j ∈ (queryBallLocal a b r).getD k [] ↔
      j < b.length ∧ withinBall (a.getD k []) (b.getD j []) r = true := by
  rw [queryBallLocal_getD a b r k h]
  simp [List.mem_filter, List.mem_range]

theorem dist2_self (p : Point) : dist2 p p = 0 := by
  induction p with
  | nil => rfl
  | cons a ps ih =>
      simp only [dist2, List.zipWith, List.sum_cons] at ih ⊢
      rw [ih]
      ring

theorem dist2_nonneg (p q : Point) : 0 ≤ dist2 p q := by
  induction p generalizing q with
  | nil => simp [dist2]
  | cons a ps ih =>
      cases q with
      | nil => simp [dist2]
      | cons b qs =>
          have h1 : 0 ≤ (a - b) * (a - b) := mul_self_nonneg _
          have h2 : 0 ≤ dist2 ps qs := ih qs
          simp only [dist2, List.zipWith, List.sum_cons] at h2 ⊢
          linarith

theorem dist2_eq_zero_iff (p q : Point) (h : p.length = q.length) :
    dist2 p q = 0 ↔ p = q := by
  induction p generalizing q with
  | nil =>
      cases q with
      | nil => simp [dist2]
      | cons b qs => simp at h
  | cons a ps ih =>
      cases q with
      | nil => simp at h
      | cons b qs =>
          have hlen : ps.length = qs.length := by simpa using h
          have htail : (List.zipWith (fun a b => (a - b) * (a - b)) ps qs).sum = 0 ↔ ps = qs := by
            simpa [dist2] using ih qs hlen
          have hS : 0 ≤ (List.zipWith (fun a b => (a - b) * (a - b)) ps qs).sum := by
            simpa [dist2] using dist2_nonneg ps qs
          have hh : 0 ≤ (a - b) * (a - b) := mul_self_nonneg _
          simp only [dist2, List.zipWith, List.sum_cons]
          constructor
          · intro hz
            have ha : (a - b) * (a - b) = 0 := by linarith
            have hs0 : (List.zipWith (fun a b => (a - b) * (a - b)) ps qs).sum = 0 := by linarith
            have hab : a = b := by
              have := sub_eq_zero.1 (mul_self_eq_zero.1 ha)
              linarith
            rw [hab, htail.1 hs0]
          · intro he
            injection he with h1 h2
            subst h1
            have hq : ps = qs := h2
            subst hq
            rw [htail.2 rfl]
            ring

theorem withinBall_self (p : Point) (r : ℚ) (hr : 0 ≤ r) : withinBall p p r = true := by
  simp only [withinBall, Bool.and_eq_true, decide_eq_true_eq]
  exact ⟨hr, by rw [dist2_self]; exact mul_self_nonneg r⟩

theorem withinBall_neg (p q : Point) (r : ℚ) (hr : r < 0) : withinBall p q r = false := by
  simp only [withinBall, Bool.and_eq_false_iff, decide_eq_false_iff_not]
  exact Or.inl (not_le.2 hr)

theorem withinBall_mono (p q : Point) (r r' : ℚ) (hr : r ≤ r')
    (hw : withinBall p q r = true) : withinBall p q r' = true := by
  simp only [withinBall, Bool.and_eq_true, decide_eq_true_eq] at hw ⊢
  obtain ⟨h0, hd⟩ := hw
  have h0' : 0 ≤ r' := le_trans h0 hr
  exact ⟨h0', le_trans hd (mul_le_mul hr hr h0 h0')⟩

theorem withinBall_zero_iff (p q : Point) :
    withinBall p q 0 = true ↔ dist2 p q = 0 := by
  simp only [withinBall, Bool.and_eq_true, decide_eq_true_eq]
  constructor
  · intro ⟨_, hd⟩
    have := dist2_nonneg p q
    linarith [hd]
  · intro h
    exact ⟨le_refl 0, by rw [h]; norm_num⟩

theorem ok_bind {α β : Type} (a : α) (f : α → Except Unit β) :
    (Except.ok a >>= f) = f a := rfl

theorem error_bind {α β : Type} (f : α → Except Unit β) :
    ((Except.error () : Except Unit α) >>= f) = Except.error () := rfl

theorem innerLoop_cons_some (ti : Layer) (o : ℚ) (mi : List (List Nat)) (tj : Layer)
    (sj : Nat) (rest : List (Option Layer × Nat)) (hd : layerDim ti = layerDim tj) :
    innerLoop ti o mi ((some tj, sj) :: rest) =
      innerLoop ti o ((List.range ti.length).map
        (fun k => mi.getD k [] ++ (shiftIdx (queryBallLocal ti tj o) sj).getD k [])) rest := by
  simp only [innerLoop, queryBallTree, if_pos hd, ok_bind]

theorem innerLoop_cons_some_error (ti : Layer) (o : ℚ) (mi : List (List Nat)) (tj : Layer)
    (sj : Nat) (rest : List (Option Layer × Nat)) (hd : ¬ layerDim ti = layerDim tj) :
    innerLoop ti o mi ((some tj, sj) :: rest) = Except.error () := by
  simp only [innerLoop, queryBallTree, if_neg hd, error_bind]

theorem innerLoop_cons_none (ti : Layer) (o : ℚ) (mi : List (List Nat)) (sj : Nat)
    (rest : List (Option Layer × Nat)) :
    innerLoop ti o mi ((none, sj) :: rest) =
      innerLoop ti o ((List.range ti.length).map
        (fun k => mi.getD k [] ++
          (shiftIdx (List.replicate ti.length ([] : List Nat)) sj).getD k [])) rest := by
  simp only [innerLoop, ok_bind]

theorem innerLoop_length (rest : List (Option Layer × Nat)) (ti : Layer) (o : ℚ)
    (mi m : List (List Nat)) (hlen : mi.length = ti.length)
    (h : innerLoop ti o mi rest = Except.ok m) : m.length = ti.length := by
  induction rest generalizing mi with
  | nil =>
      simp only [innerLoop] at h
      cases h
      exact hlen
  | cons p rest ih =>
      obtain ⟨tree_j, sj⟩ := p
      cases tree_j with
      | some tj =>
          by_cases hd : layerDim ti = layerDim tj
          · rw [innerLoop_cons_some ti o mi tj sj rest hd] at h
            exact ih _ (by simp) h
          · rw [innerLoop_cons_some_error ti o mi tj sj rest hd] at h
            exact Except.noConfusion h
      | none =>
          rw [innerLoop_cons_none ti o mi sj rest] at h
          exact ih _ (by simp) h

theorem innerLoop_ok_of_dims (rest : List (Option Layer × Nat)) (ti : Layer) (o : ℚ)
    (mi : List (List Nat))
    (h : ∀ tj sj, (some tj, sj) ∈ rest → layerDim ti = layerDim tj) :
    ∃ m, innerLoop ti o mi rest = Except.ok m := by
  induction rest generalizing mi with
  | nil => exact ⟨mi, rfl⟩
  | cons p rest ih =>
      obtain ⟨tree_j, sj⟩ := p
      cases tree_j with
      | some tj =>
          have hd : layerDim ti = layerDim tj := h tj sj (by simp)
          rw [innerLoop_cons_some ti o mi tj sj rest hd]
          exact ih _ (fun tj' sj' hm => h tj' sj' (by simp [hm]))
      | none =>
          rw [innerLoop_cons_none ti o mi sj rest]
          exact ih _ (fun tj' sj' hm => h tj' sj' (by simp [hm]))

theorem innerLoop_error_of_mismatch (rest : List (Option Layer × Nat)) (ti : Layer) (o : ℚ)
    (mi : List (List Nat)) (tj : Layer) (sj : Nat) (hmem : (some tj, sj) ∈ rest)
    (hd : ¬ layerDim ti = layerDim tj) :
    innerLoop ti o mi rest = Except.error () := by
  induction rest generalizing mi with
  | nil => simp at hmem
  | cons p rest ih =>
      rcases List.mem_cons.1 hmem with he | hm
      · subst he
        exact innerLoop_cons_some_error ti o mi tj sj rest hd
      · obtain ⟨tree_j, sj'⟩ := p
        cases tree_j with
        | some tj' =>
            by_cases hd' : layerDim ti = layerDim tj'
            · rw [innerLoop_cons_some ti o mi tj' sj' rest hd']
              exact ih _ hm
            · exact innerLoop_cons_some_error ti o mi tj' sj' rest hd'
        | none =>
            rw [innerLoop_cons_none ti o mi sj' rest]
            exact ih _ hm

theorem range_map_getD_self (m : List (List Nat)) :
    (List.range m.length).map (fun k => m.getD k []) = m := by
  apply List.ext_getElem
  · simp
  · intro i h1 h2
    simp only [List.getElem_map, List.getElem_range]
    rw [List.getD_eq_getElem?_getD, List.getElem?_eq_getElem h2]
    rfl

theorem shiftIdx_replicate_getD (len sj k : Nat) :
    (shiftIdx (List.replicate len ([] : List Nat)) sj).getD k [] = [] := by
  rw [shiftIdx_getD, replicate_getD_nil]
  rfl

theorem innerLoop_mem_init (rest : List (Option Layer × Nat)) (ti : Layer) (o : ℚ)
    (mi m : List (List Nat)) (hlen : mi.length = ti.length)
    (h : innerLoop ti o mi rest = Except.ok m) :
    ∀ k x, x ∈ mi.getD k [] → x ∈ m.getD k [] := by
  induction rest generalizing mi with
  | nil =>
      simp only [innerLoop] at h
      cases h
      exact fun k x hx => hx
  | cons p rest ih =>
      obtain ⟨tree_j, sj⟩ := p
      intro k x hx
      have hk : k < ti.length := by
        by_contra hk
        rw [getD_eq_nil_of_le mi k (by omega)] at hx
        exact absurd hx (List.not_mem_nil x)
      cases tree_j with
      | some tj =>
          by_cases hd : layerDim ti = layerDim tj
          · rw [innerLoop_cons_some ti o mi tj sj rest hd] at h
            refine ih _ (by simp) h k x ?_
            rw [getD_range_map _ _ _ hk]
            exact List.mem_append_left _ hx
          · rw [innerLoop_cons_some_error ti o mi tj sj rest hd] at h
            exact Except.noConfusion h
      | none =>
          rw [innerLoop_cons_none ti o mi sj rest] at h
          refine ih _ (by simp) h k x ?_
          rw [getD_range_map _ _ _ hk]
          exact List.mem_append_left _ hx

theorem innerLoop_mem_cases (rest : List (Option Layer × Nat)) (ti : Layer) (o : ℚ)
    (mi m : List (List Nat)) (hlen : mi.length = ti.length)
    (h : innerLoop ti o mi rest = Except.ok m) :
    ∀ k x, x ∈ m.getD k [] → x ∈ mi.getD k [] ∨
      ∃ tj sj j, (some tj, sj) ∈ rest ∧ j < tj.length ∧ x = j + sj := by
  induction rest generalizing mi with
  | nil =>
      simp only [innerLoop] at h
      cases h
      exact fun k x hx => Or.inl hx
  | cons p rest ih =>
      obtain ⟨tree_j, sj⟩ := p
      intro k x hx
      cases tree_j with
      | some tj =>
          by_cases hd : layerDim ti = layerDim tj
          · rw [innerLoop_cons_some ti o mi tj sj rest hd] at h
            rcases ih _ (by simp) h k x hx with hx' | ⟨tj', sj', j', hm', hj', he'⟩
            · by_cases hk : k < ti.length
              · rw [getD_range_map _ _ _ hk] at hx'
                rcases List.mem_append.1 hx' with hl | hr
                · exact Or.inl hl
                · rw [shiftIdx_getD] at hr
                  obtain ⟨j, hj, rfl⟩ := List.mem_map.1 hr
                  have := (mem_queryBallLocal_getD ti tj o k j hk).1 hj
                  exact Or.inr ⟨tj, sj, j, by simp, this.1, rfl⟩
              · rw [getD_eq_nil_of_le _ k (by simp; omega)] at hx'
                exact absurd hx' (List.not_mem_nil x)
            · exact Or.inr ⟨tj', sj', j', by simp [hm'], hj', he'⟩
          · rw [innerLoop_cons_some_error ti o mi tj sj rest hd] at h
            exact Except.noConfusion h
      | none =>
          rw [innerLoop_cons_none ti o mi sj rest] at h
          rcases ih _ (by simp) h k x hx with hx' | ⟨tj', sj', j', hm', hj', he'⟩
          · by_cases hk : k < ti.length
            · rw [getD_range_map _ _ _ hk, shiftIdx_replicate_getD] at hx'
              exact Or.inl (by simpa using hx')
            · rw [getD_eq_nil_of_le _ k (by simp; omega)] at hx'
              exact absurd hx' (List.not_mem_nil x)
          · exact Or.inr ⟨tj', sj', j', by simp [hm'], hj', he'⟩

theorem innerLoop_subset (rest : List (Option Layer × Nat)) (ti : Layer) (o o' : ℚ)
    (ho : o ≤ o') (mi mi' m m' : List (List Nat))
    (hlen : mi.length = ti.length) (hlen' : mi'.length = ti.length)
    (hsub : ∀ k x, x ∈ mi.getD k [] → x ∈ mi'.getD k [])
    (h : innerLoop ti o mi rest = Except.ok m)
    (h' : innerLoop ti o' mi' rest = Except.ok m') :
    ∀ k x, x ∈ m.getD k [] → x ∈ m'.getD k [] := by
  induction rest generalizing mi mi' with
  | nil =>
      simp only [innerLoop] at h h'
      cases h
      cases h'
      exact hsub
  | cons p rest ih =>
      obtain ⟨tree_j, sj⟩ := p
      cases tree_j with
      | some tj =>
          by_cases hd : layerDim ti = layerDim tj
          · rw [innerLoop_cons_some ti o mi tj sj rest hd] at h
            rw [innerLoop_cons_some ti o' mi' tj sj rest hd] at h'
            refine ih _ _ (by simp) (by simp) ?_ h h'
            intro k x hx
            by_cases hk : k < ti.length
            · rw [getD_range_map _ _ _ hk] at hx ⊢
              rcases List.mem_append.1 hx with hl | hr
              · exact List.mem_append_left _ (hsub k x hl)
              · refine List.mem_append_right _ ?_
                rw [shiftIdx_getD] at hr ⊢
                obtain ⟨j, hj, rfl⟩ := List.mem_map.1 hr
                refine List.mem_map.2 ⟨j, ?_, rfl⟩
                have hj' := (mem_queryBallLocal_getD ti tj o k j hk).1 hj
                exact (mem_queryBallLocal_getD ti tj o' k j hk).2
                  ⟨hj'.1, withinBall_mono _ _ _ _ ho hj'.2⟩
            · rw [getD_eq_nil_of_le _ k (by simp; omega)] at hx
              exact absurd hx (List.not_mem_nil x)
          · rw [innerLoop_cons_some_error ti o mi tj sj rest hd] at h
            exact Except.noConfusion h
      | none =>
          rw [innerLoop_cons_none ti o mi sj rest] at h
          rw [innerLoop_cons_none ti o' mi' sj rest] at h'
          refine ih _ _ (by simp) (by simp) ?_ h h'
          intro k x hx
          by_cases hk : k < ti.length
          · rw [getD_range_map _ _ _ hk, shiftIdx_replicate_getD] at hx ⊢
            rcases List.mem_append.1 hx with hl | hr
            · exact List.mem_append_left _ (hsub k x hl)
            · exact absurd hr (List.not_mem_nil x)
          · rw [getD_eq_nil_of_le _ k (by simp; omega)] at hx
            exact absurd hx (List.not_mem_nil x)

theorem innerLoop_skip_none (a : List (Option Layer × Nat)) (b : List (Option Layer × Nat))
    (ti : Layer) (o : ℚ) (mi : List (List Nat)) (s0 : Nat)
    (hlen : mi.length = ti.length) :
    innerLoop ti o mi (a ++ (none, s0) :: b) = innerLoop ti o mi (a ++ b) := by
  induction a generalizing mi with
  | nil =>
      simp only [List.nil_append]
      rw [innerLoop_cons_none ti o mi s0 b]
      congr 1
      have : ∀ k, mi.getD k [] ++ (shiftIdx (List.replicate ti.length ([] : List Nat)) s0).getD k []
          = mi.getD k [] := by
        intro k
        rw [shiftIdx_replicate_getD]
        exact List.append_nil _
      calc (List.range ti.length).map (fun k => mi.getD k [] ++
            (shiftIdx (List.replicate ti.length ([] : List Nat)) s0).getD k [])
          = (List.range ti.length).map (fun k => mi.getD k []) := by
            exact List.map_congr_left (fun k _ => this k)
        _ = mi := by rw [← hlen]; exact range_map_getD_self mi
  | cons p a ih =>
      obtain ⟨tree_j, sj⟩ := p
      cases tree_j with
      | some tj =>
          by_cases hd : layerDim ti = layerDim tj
          · rw [List.cons_append, innerLoop_cons_some ti o mi tj sj _ hd,
              List.cons_append, innerLoop_cons_some ti o mi tj sj _ hd]
            exact ih _ (by simp)
          · rw [List.cons_append, innerLoop_cons_some_error ti o mi tj sj _ hd,
              List.cons_append, innerLoop_cons_some_error ti o mi tj sj _ hd]
      | none =>
          rw [List.cons_append, innerLoop_cons_none ti o mi sj _,
            List.cons_append, innerLoop_cons_none ti o mi sj _]
          exact ih _ (by simp)

theorem bind_ok_inv {α β : Type} {e : Except Unit α} {f : α → Except Unit β} {b : β}
    (h : (e >>= f) = Except.ok b) : ∃ a, e = Except.ok a ∧ f a = Except.ok b := by
  cases e with
  | ok a => exact ⟨a, rfl, by rw [ok_bind] at h; exact h⟩
  | error u =>
      cases u
      rw [error_bind] at h
      exact Except.noConfusion h

theorem clusterLoop_cons_some (s o : ℚ) (ti : Layer) (si : Nat)
    (rest : List (Option Layer × Nat)) :
    clusterLoop s o ((some ti, si) :: rest) =
      (innerLoop ti o (shiftIdx (queryBallLocal ti ti s) si) rest) >>= (fun mi =>
        (clusterLoop s o rest) >>= (fun tail => Except.ok (mi ++ tail))) := by
  simp only [clusterLoop, queryBallTree, eq_self_iff_true, if_true, ok_bind]

theorem clusterLoop_cons_none (s o : ℚ) (sj : Nat) (rest : List (Option Layer × Nat)) :
    clusterLoop s o ((none, sj) :: rest) = clusterLoop s o rest := by
  simp only [clusterLoop, ok_bind]
  cases clusterLoop s o rest with
  | ok tail => rw [ok_bind]; rfl
  | error u => cases u; rw [error_bind]

theorem clusterLoop_length (layers : List Layer) (acc : Nat) (s o : ℚ)
    (m : List (List Nat))
    (h : clusterLoop s o ((layers.map treeOf).zip (startsFrom acc layers)) = Except.ok m) :
    m.length = totalPoints layers := by
  induction layers generalizing acc m with
  | nil =>
      simp only [List.map_nil, startsFrom, List.zip_nil_left, clusterLoop] at h
      cases h
      rfl
  | cons l ls ih =>
      simp only [List.map_cons, startsFrom, List.zip_cons_cons] at h
      by_cases hl : l.length > 0
      · rw [show treeOf l = some l from if_pos hl, clusterLoop_cons_some] at h
        obtain ⟨mi, hmi, h2⟩ := bind_ok_inv h
        obtain ⟨tail, htail, h3⟩ := bind_ok_inv h2
        cases h3
        have l1 : mi.length = l.length :=
          innerLoop_length _ _ _ _ _ (by simp [shiftIdx_length, queryBallLocal_length]) hmi
        have l2 : tail.length = totalPoints ls := ih _ _ htail
        simp [totalPoints_cons, l1, l2]
      · have hnil : l = [] := List.length_eq_zero.1 (by omega)
        subst hnil
        rw [show treeOf [] = none from rfl, clusterLoop_cons_none] at h
        have := ih _ _ (show clusterLoop s o ((ls.map treeOf).zip (startsFrom (acc + 0) ls)) = Except.ok m by simpa using h)
        simpa [totalPoints_cons] using this

theorem clusterLoop_ok_of_dims (s o : ℚ) (ps : List (Option Layer × Nat))
    (h : ps.Pairwise (fun p q => ∀ ti tj, p.1 = some ti → q.1 = some tj →
      layerDim ti = layerDim tj)) :
    ∃ m, clusterLoop s o ps = Except.ok m := by
  induction ps with
  | nil => exact ⟨[], rfl⟩
  | cons p rest ih =>
      obtain ⟨hhead, hrest⟩ := List.pairwise_cons.1 h
      obtain ⟨tail, htail⟩ := ih hrest
      obtain ⟨tree_i, si⟩ := p
      cases tree_i with
      | some ti =>
          obtain ⟨mi, hmi⟩ := innerLoop_ok_of_dims rest ti o
            (shiftIdx (queryBallLocal ti ti s) si)
            (fun tj sj hm => hhead (some tj, sj) hm ti tj rfl rfl)
          exact ⟨mi ++ tail, by rw [clusterLoop_cons_some, hmi, ok_bind, htail, ok_bind]⟩
      | none => exact ⟨tail, by rw [clusterLoop_cons_none, htail]⟩

theorem clusterLoop_error_of_mismatch (s o : ℚ) (a b : List (Option Layer × Nat))
    (ti : Layer) (si : Nat) (tj : Layer) (sj : Nat)
    (hmem : (some tj, sj) ∈ b) (hd : ¬ layerDim ti = layerDim tj) :
    clusterLoop s o (a ++ (some ti, si) :: b) = Except.error () := by
  induction a with
  | nil =>
      rw [List.nil_append, clusterLoop_cons_some,
        innerLoop_error_of_mismatch b ti o _ tj sj hmem hd]
      rfl
  | cons p a ih =>
      obtain ⟨tree_p, sp⟩ := p
      cases tree_p with
      | some tp =>
          rw [List.cons_append, clusterLoop_cons_some]
          cases hip : innerLoop tp o (shiftIdx (queryBallLocal tp tp s) sp)
              (a ++ (some ti, si) :: b) with
          | ok mi => rw [ok_bind, ih, error_bind]
          | error u => cases u; rw [error_bind]
      | none => rw [List.cons_append, clusterLoop_cons_none]; exact ih

theorem getD_append_lt (a b : List (List Nat)) (k : Nat) (h : k < a.length) :
    (a ++ b).getD k [] = a.getD k [] := by
  rw [List.getD_eq_getElem?_getD, List.getD_eq_getElem?_getD, List.getElem?_append,
    if_pos h]

theorem getD_append_ge (a b : List (List Nat)) (k : Nat) (h : a.length ≤ k) :
    (a ++ b).getD k [] = b.getD (k - a.length) [] := by
  rw [List.getD_eq_getElem?_getD, List.getD_eq_getElem?_getD, List.getElem?_append,
    if_neg (not_lt.2 h)]

theorem sliceStart_zero (acc : Nat) (layers : List Layer) :
    sliceStart acc layers 0 = acc := by
  simp [sliceStart, totalPoints]

theorem sliceStart_cons_succ (acc : Nat) (l : Layer) (ls : List Layer) (li : Nat) :
    sliceStart acc (l :: ls) (li + 1) = sliceStart (acc + l.length) ls li := by
  simp only [sliceStart, List.take_succ_cons, totalPoints_cons]
  omega

theorem mem_zip_struct (ls : List Layer) (acc : Nat) (tj : Layer) (sjv : Nat)
    (h : (some tj, sjv) ∈ (ls.map treeOf).zip (startsFrom acc ls)) :
    ∃ lj, lj < ls.length ∧ ls.getD lj [] = tj ∧ 0 < tj.length ∧
      sjv = sliceStart acc ls lj := by
  induction ls generalizing acc with
  | nil => simp [startsFrom] at h
  | cons a as ih =>
      simp only [List.map_cons, startsFrom, List.zip_cons_cons] at h
      rcases List.mem_cons.1 h with he | hm
      · have h1 : treeOf a = some tj := congrArg Prod.fst he.symm
        have h2 : acc = sjv := congrArg Prod.snd he.symm
        have ha : a = tj ∧ 0 < a.length := by
          by_cases hl : a.length > 0
          · rw [treeOf, if_pos hl] at h1
            exact ⟨Option.some.inj h1, hl⟩
          · rw [treeOf, if_neg hl] at h1
            exact Option.noConfusion h1
        exact ⟨0, by simp, by simpa using ha.1, ha.1 ▸ ha.2, by
          rw [sliceStart_zero]; omega⟩
      · obtain ⟨lj, hlt, hget, hpos, hs⟩ := ih (acc + a.length) hm
        exact ⟨lj + 1, by simpa using hlt, by simpa using hget, hpos, by
          rw [sliceStart_cons_succ]; exact hs⟩

theorem clusterLoop_self_mem (layers : List Layer) (acc : Nat) (s o : ℚ)
    (m : List (List Nat)) (hs : 0 ≤ s)
    (h : clusterLoop s o ((layers.map treeOf).zip (startsFrom acc layers)) = Except.ok m) :
    ∀ g, g < totalPoints layers → acc + g ∈ m.getD g [] := by
  induction layers generalizing acc m with
  | nil => simp [totalPoints] at *
  | cons l ls ih =>
      simp only [List.map_cons, startsFrom, List.zip_cons_cons] at h
      by_cases hl : l.length > 0
      · rw [show treeOf l = some l from if_pos hl, clusterLoop_cons_some] at h
        obtain ⟨mi, hmi, h2⟩ := bind_ok_inv h
        obtain ⟨tail, htail, h3⟩ := bind_ok_inv h2
        cases h3
        have lmi : mi.length = l.length :=
          innerLoop_length _ _ _ _ _ (by simp [shiftIdx_length, queryBallLocal_length]) hmi
        intro g hg
        by_cases hgl : g < l.length
        · rw [getD_append_lt mi tail g (by omega)]
          refine innerLoop_mem_init _ _ _ _ _
            (by simp [shiftIdx_length, queryBallLocal_length]) hmi g (acc + g) ?_
          rw [shiftIdx_getD, queryBallLocal_getD l l s g hgl]
          refine List.mem_map.2 ⟨g, ?_, by omega⟩
          refine List.mem_filter.2 ⟨List.mem_range.2 hgl, ?_⟩
          exact withinBall_self _ s hs
        · rw [getD_append_ge mi tail g (by omega), lmi]
          have hg' : g - l.length < totalPoints ls := by
            rw [totalPoints_cons] at hg
            omega
          have := ih (acc + l.length) tail htail (g - l.length) hg'
          have heq : acc + l.length + (g - l.length) = acc + g := by omega
          rwa [heq] at this
      · have hnil : l = [] := List.length_eq_zero.1 (by omega)
        subst hnil
        rw [show treeOf [] = none from rfl, clusterLoop_cons_none] at h
        intro g hg
        have hg' : g < totalPoints ls := by
          rw [totalPoints_cons] at hg
          omega
        have := ih (acc + 0) m (by simpa using h) g hg'
        simpa using this

theorem clusterLoop_bound (layers : List Layer) (acc : Nat) (s o : ℚ)
    (m : List (List Nat))
    (h : clusterLoop s o ((layers.map treeOf).zip (startsFrom acc layers)) = Except.ok m) :
    ∀ g x, g < totalPoints layers → x ∈ m.getD g [] →
      ∃ li lj, li ≤ lj ∧ lj < layers.length ∧
        sliceStart acc layers li ≤ acc + g ∧
        acc + g < sliceStart acc layers li + (layers.getD li []).length ∧
        sliceStart acc layers lj ≤ x ∧
        x < sliceStart acc layers lj + (layers.getD lj []).length := by
  induction layers generalizing acc m with
  | nil => simp [totalPoints] at *
  | cons l ls ih =>
      simp only [List.map_cons, startsFrom, List.zip_cons_cons] at h
      by_cases hl : l.length > 0
      · rw [show treeOf l = some l from if_pos hl, clusterLoop_cons_some] at h
        obtain ⟨mi, hmi, h2⟩ := bind_ok_inv h
        obtain ⟨tail, htail, h3⟩ := bind_ok_inv h2
        cases h3
        have lmi : mi.length = l.length :=
          innerLoop_length _ _ _ _ _ (by simp [shiftIdx_length, queryBallLocal_length]) hmi
        intro g x hg hx
        by_cases hgl : g < l.length
        · rw [getD_append_lt mi tail g (by omega)] at hx
          rcases innerLoop_mem_cases _ _ _ _ _
              (by simp [shiftIdx_length, queryBallLocal_length]) hmi g x hx with hx0 | hx1
          · rw [shiftIdx_getD, queryBallLocal_getD l l s g hgl] at hx0
            obtain ⟨j, hj, rfl⟩ := List.mem_map.1 hx0
            have hjl : j < l.length := List.mem_range.1 (List.mem_filter.1 hj).1
            refine ⟨0, 0, le_refl 0, by simp, ?_, ?_, ?_, ?_⟩
            · rw [sliceStart_zero]; omega
            · rw [sliceStart_zero]; simpa using (by omega : acc + g < acc + l.length)
            · rw [sliceStart_zero]; omega
            · rw [sliceStart_zero]; simpa using (by omega : j + acc < acc + l.length)
          · obtain ⟨tj, sjv, j, hmem, hjlt, rfl⟩ := hx1
            obtain ⟨lj, hljlt, hget, _hpos, hsv⟩ := mem_zip_struct ls (acc + l.length) tj sjv hmem
            refine ⟨0, lj + 1, by omega, by simpa using hljlt, ?_, ?_, ?_, ?_⟩
            · rw [sliceStart_zero]; omega
            · rw [sliceStart_zero]; simpa using (by omega : acc + g < acc + l.length)
            · rw [sliceStart_cons_succ, ← hsv]; omega
            · rw [sliceStart_cons_succ, ← hsv]
              have hgd : ((l :: ls).getD (lj + 1) []) = tj := by
                rw [List.getD_cons_succ]
                exact hget
              rw [hgd]
              omega
        · rw [getD_append_ge mi tail g (by omega), lmi] at hx
          have hg' : g - l.length < totalPoints ls := by
            rw [totalPoints_cons] at hg
            omega
          obtain ⟨li, lj, hle, hlt, b1, b2, b3, b4⟩ :=
            ih (acc + l.length) tail htail (g - l.length) x hg' hx
          have heq : acc + l.length + (g - l.length) = acc + g := by omega
          rw [heq] at b1 b2
          refine ⟨li + 1, lj + 1, by omega, by simpa using hlt, ?_, ?_, ?_, ?_⟩
          · rw [sliceStart_cons_succ]; exact b1
          · rw [sliceStart_cons_succ]; simpa [List.getD_cons_succ] using b2
          · rw [sliceStart_cons_succ]; exact b3
          · rw [sliceStart_cons_succ]; simpa [List.getD_cons_succ] using b4
      · have hnil : l = [] := List.length_eq_zero.1 (by omega)
        subst hnil
        rw [show treeOf [] = none from rfl, clusterLoop_cons_none] at h
        intro g x hg hx
        have hg' : g < totalPoints ls := by
          rw [totalPoints_cons] at hg
          omega
        obtain ⟨li, lj, hle, hlt, b1, b2, b3, b4⟩ :=
          ih (acc + 0) m (by simpa using h) g x hg' hx
        rw [Nat.add_zero] at b1 b2 b3 b4
        have hb1 : acc + g = acc + 0 + g := by omega
        refine ⟨li + 1, lj + 1, by omega, by simpa using hlt, ?_, ?_, ?_, ?_⟩
        · rw [sliceStart_cons_succ]; simpa using b1
        · rw [sliceStart_cons_succ]; simpa [List.getD_cons_succ] using b2
        · rw [sliceStart_cons_succ]; simpa using b3
        · rw [sliceStart_cons_succ]; simpa [List.getD_cons_succ] using b4

theorem clusterLoop_subset (ps : List (Option Layer × Nat)) (s o s' o' : ℚ)
    (hs : s ≤ s') (ho : o ≤ o') (m m' : List (List Nat))
    (h : clusterLoop s o ps = Except.ok m) (h' : clusterLoop s' o' ps = Except.ok m') :
    ∀ k x, x ∈ m.getD k [] → x ∈ m'.getD k [] := by
  induction ps generalizing m m' with
  | nil =>
      simp only [clusterLoop] at h h'
      cases h
      cases h'
      exact fun k x hx => hx
  | cons p rest ih =>
      obtain ⟨tree_i, si⟩ := p
      cases tree_i with
      | some ti =>
          rw [clusterLoop_cons_some] at h h'
          obtain ⟨mi, hmi, g2⟩ := bind_ok_inv h
          obtain ⟨tail, htail, g3⟩ := bind_ok_inv g2
          cases g3
          obtain ⟨mi', hmi', g2'⟩ := bind_ok_inv h'
          obtain ⟨tail', htail', g3'⟩ := bind_ok_inv g2'
          cases g3'
          have lmi : mi.length = ti.length :=
            innerLoop_length _ _ _ _ _ (by simp [shiftIdx_length, queryBallLocal_length]) hmi
          have lmi' : mi'.length = ti.length :=
            innerLoop_length _ _ _ _ _ (by simp [shiftIdx_length, queryBallLocal_length]) hmi'
          have hinit : ∀ k x, x ∈ (shiftIdx (queryBallLocal ti ti s) si).getD k [] →
              x ∈ (shiftIdx (queryBallLocal ti ti s') si).getD k [] := by
            intro k x hx
            by_cases hk : k < ti.length
            · rw [shiftIdx_getD] at hx ⊢
              obtain ⟨j, hj, rfl⟩ := List.mem_map.1 hx
              refine List.mem_map.2 ⟨j, ?_, rfl⟩
              have hj' := (mem_queryBallLocal_getD ti ti s k j hk).1 hj
              exact (mem_queryBallLocal_getD ti ti s' k j hk).2
                ⟨hj'.1, withinBall_mono _ _ _ _ hs hj'.2⟩
            · rw [shiftIdx_getD, getD_eq_nil_of_le _ k
                (by rw [queryBallLocal_length]; omega)] at hx
              exact absurd hx (List.not_mem_nil x)
          have hblock := innerLoop_subset rest ti o o' ho _ _ _ _
            (by simp [shiftIdx_length, queryBallLocal_length])
            (by simp [shiftIdx_length, queryBallLocal_length]) hinit hmi hmi'
          have htails := ih _ _ htail htail'
          intro k x hx
          by_cases hk : k < ti.length
          · rw [getD_append_lt mi tail k (by omega)] at hx
            rw [getD_append_lt mi' tail' k (by omega)]
            exact hblock k x hx
          · rw [getD_append_ge mi tail k (by omega), lmi] at hx
            rw [getD_append_ge mi' tail' k (by omega), lmi']
            exact htails _ x hx
      | none =>
          rw [clusterLoop_cons_none] at h h'
          exact ih _ _ h h'

theorem clusterLoop_skip_none (a b : List (Option Layer × Nat)) (s o : ℚ) (s0 : Nat) :
    clusterLoop s o (a ++ (none, s0) :: b) = clusterLoop s o (a ++ b) := by
  induction a with
  | nil =>
      simp only [List.nil_append]
      exact clusterLoop_cons_none s o s0 b
  | cons p a ih =>
      obtain ⟨tree_i, si⟩ := p
      cases tree_i with
      | some ti =>
          rw [List.cons_append, clusterLoop_cons_some, List.cons_append,
            clusterLoop_cons_some,
            innerLoop_skip_none a b ti o _ s0 (by simp [shiftIdx_length, queryBallLocal_length]),
            ih]
      | none =>
          rw [List.cons_append, clusterLoop_cons_none, List.cons_append,
            clusterLoop_cons_none]
          exact ih

theorem find_start (n x : Nat) : (UnionFind.start n).find x = x := by
  unfold UnionFind.start UnionFind.find
  rw [List.getD_eq_getElem?_getD]
  by_cases h : x < n
  · rw [List.getElem?_range h]
    rfl
  · rw [List.getElem?_eq_none (by simpa using h)]
    rfl

theorem ufInv_start (n : Nat) : ufInv (UnionFind.start n) := by
  constructor
  · simp [UnionFind.start]
  · intro r hr
    simpa [UnionFind.start] using hr

theorem find_lt (uf : UnionFind) (hinv : ufInv uf) (x : Nat) (hx : x < uf.n) :
    uf.find x < uf.n := by
  obtain ⟨hlen, hmem⟩ := hinv
  have hxl : x < uf.root.length := by omega
  rw [UnionFind.find, List.getD_eq_getElem?_getD, List.getElem?_eq_getElem hxl,
    Option.getD_some]
  exact hmem _ (uf.root.getElem_mem hxl)

theorem find_ge (uf : UnionFind) (hinv : ufInv uf) (x : Nat) (hx : uf.n ≤ x) :
    uf.find x = x := by
  obtain ⟨hlen, _⟩ := hinv
  rw [UnionFind.find, List.getD_eq_getElem?_getD, List.getElem?_eq_none (by omega)]
  rfl

theorem union_n (uf : UnionFind) (a b : Nat) : (uf.union a b).n = uf.n := by
  simp only [UnionFind.union]
  split <;> rfl

theorem find_union (uf : UnionFind) (hinv : ufInv uf) (a b : Nat)
    (ha : a < uf.n) (hb : b < uf.n) (x : Nat) :
    (uf.union a b).find x =
      if uf.find x = uf.find a then uf.find b else uf.find x := by
  obtain ⟨hlen, hmem⟩ := hinv
  unfold UnionFind.union
  by_cases hab : uf.find a = uf.find b
  · rw [if_pos hab]
    by_cases hx : uf.find x = uf.find a
    · rw [if_pos hx, hx, hab]
    · rw [if_neg hx]
  · rw [if_neg hab]
    show (uf.root.map (fun r => if r = uf.find a then uf.find b else r)).getD x x = _
    by_cases hx : x < uf.root.length
    · have hfx : uf.find x = uf.root[x] := by
        rw [UnionFind.find, List.getD_eq_getElem?_getD, List.getElem?_eq_getElem hx,
          Option.getD_some]
      rw [List.getD_eq_getElem?_getD, List.getElem?_map, List.getElem?_eq_getElem hx]
      simp only [Option.map_some', Option.getD_some]
      rw [← hfx]
    · have hfx : uf.find x = x := by
        rw [UnionFind.find, List.getD_eq_getElem?_getD, List.getElem?_eq_none (by omega)]
        rfl
      have hra : uf.find a < uf.n := find_lt uf ⟨hlen, hmem⟩ a ha
      rw [List.getD_eq_getElem?_getD, List.getElem?_map,
        List.getElem?_eq_none (by omega)]
      rw [hfx, if_neg (by omega)]
      rfl

theorem ufInv_union (uf : UnionFind) (hinv : ufInv uf) (a b : Nat)
    (ha : a < uf.n) (hb : b < uf.n) : ufInv (uf.union a b) := by
  obtain ⟨hlen, hmem⟩ := hinv
  simp only [UnionFind.union]
  split
  · exact ⟨hlen, hmem⟩
  · constructor
    · simpa using hlen
    · intro r hr
      simp only [List.mem_map] at hr
      obtain ⟨r0, hr0, rfl⟩ := hr
      show (if r0 = uf.find a then uf.find b else r0) < uf.n
      by_cases h : r0 = uf.find a
      · rw [if_pos h]
        exact find_lt uf ⟨hlen, hmem⟩ b hb
      · rw [if_neg h]
        exact hmem r0 hr0

theorem sameSet_union_iff (uf : UnionFind) (hinv : ufInv uf) (a b : Nat)
    (ha : a < uf.n) (hb : b < uf.n) (i j : Nat) :
    (uf.union a b).sameSet i j ↔
      uf.sameSet i j ∨ (uf.sameSet i a ∧ uf.sameSet j b) ∨
        (uf.sameSet i b ∧ uf.sameSet j a) := by
  simp only [UnionFind.sameSet, find_union uf hinv a b ha hb]
  by_cases hi : uf.find i = uf.find a
  · by_cases hj : uf.find j = uf.find a
    · rw [if_pos hi, if_pos hj]
      constructor
      · intro _
        exact Or.inl (by rw [hi, hj])
      · intro _
        rfl
    · rw [if_pos hi, if_neg hj]
      constructor
      · intro h
        exact Or.inr (Or.inl ⟨hi, h.symm⟩)
      · rintro (h | ⟨h1, h2⟩ | ⟨h1, h2⟩)
        · rw [hi] at h
          exact absurd h.symm hj
        · exact h2.symm
        · exact absurd h2 hj
  · by_cases hj : uf.find j = uf.find a
    · rw [if_neg hi, if_pos hj]
      constructor
      · intro h
        exact Or.inr (Or.inr ⟨h, hj⟩)
      · rintro (h | ⟨h1, h2⟩ | ⟨h1, h2⟩)
        · rw [hj] at h
          exact absurd h hi
        · exact absurd h1 hi
        · exact h1
    · rw [if_neg hi, if_neg hj]
      constructor
      · intro h
        exact Or.inl h
      · rintro (h | ⟨h1, h2⟩ | ⟨h1, h2⟩)
        · exact h
        · exact absurd h1 hi
        · exact absurd h2 hj

theorem sameSet_union_ab (uf : UnionFind) (hinv : ufInv uf) (a b : Nat)
    (ha : a < uf.n) (hb : b < uf.n) : (uf.union a b).sameSet a b := by
  simp only [UnionFind.sameSet, find_union uf hinv a b ha hb]
  simp [ite_self]

theorem sameSet_start (n x y : Nat) :
    (UnionFind.start n).sameSet x y ↔ x = y := by
  simp [UnionFind.sameSet, find_start]

theorem eqvGen_lift {r s : Nat → Nat → Prop}
    (h : ∀ x y, r x y → Relation.EqvGen s x y) {i j : Nat}
    (hij : Relation.EqvGen r i j) : Relation.EqvGen s i j := by
  induction hij with
  | rel x y hxy => exact h x y hxy
  | refl x => exact Relation.EqvGen.refl x
  | symm x y _ ih => exact Relation.EqvGen.symm x y ih
  | trans x y z _ _ ih1 ih2 => exact Relation.EqvGen.trans x y z ih1 ih2

theorem ufProcess_n (ps : List (Nat × Nat)) (uf : UnionFind) :
    (ufProcess uf ps).n = uf.n := by
  induction ps generalizing uf with
  | nil => rfl
  | cons ab rest ih =>
      show (ufProcess (uf.union ab.1 ab.2) rest).n = uf.n
      rw [ih, union_n]

theorem ufInv_ufProcess (ps : List (Nat × Nat)) (uf : UnionFind) (hinv : ufInv uf)
    (hps : ∀ ab ∈ ps, ab.1 < uf.n ∧ ab.2 < uf.n) : ufInv (ufProcess uf ps) := by
  induction ps generalizing uf with
  | nil => exact hinv
  | cons ab rest ih =>
      obtain ⟨ha, hb⟩ := hps ab (by simp)
      show ufInv (ufProcess (uf.union ab.1 ab.2) rest)
      refine ih _ (ufInv_union uf hinv ab.1 ab.2 ha hb) ?_
      intro cd hcd
      rw [union_n]
      exact hps cd (by simp [hcd])

theorem ufProcess_sameSet (ps : List (Nat × Nat)) (uf : UnionFind) (hinv : ufInv uf)
    (hps : ∀ ab ∈ ps, ab.1 < uf.n ∧ ab.2 < uf.n) (i j : Nat) :
    (ufProcess uf ps).sameSet i j ↔
      Relation.EqvGen (fun x y => uf.sameSet x y ∨ (x, y) ∈ ps) i j := by
  induction ps generalizing uf with
  | nil =>
      have hequiv : Equivalence
          (fun x y : Nat => uf.sameSet x y ∨ (x, y) ∈ ([] : List (Nat × Nat))) := by
        constructor
        · intro x
          exact Or.inl rfl
        · intro x y h
          rcases h with h | h
          · exact Or.inl h.symm
          · simp at h
        · intro x y z h1 h2
          rcases h1 with h1 | h1
          · rcases h2 with h2 | h2
            · exact Or.inl (h1.trans h2)
            · simp at h2
          · simp at h1
      rw [Equivalence.eqvGen_iff hequiv]
      show uf.sameSet i j ↔ _
      constructor
      · exact Or.inl
      · intro h
        rcases h with h | h
        · exact h
        · simp at h
  | cons ab rest ih =>
      obtain ⟨a, b⟩ := ab
      obtain ⟨ha, hb⟩ := hps (a, b) (by simp)
      have hinv' := ufInv_union uf hinv a b ha hb
      have hps' : ∀ cd ∈ rest, cd.1 < (uf.union a b).n ∧ cd.2 < (uf.union a b).n := by
        intro cd hcd
        rw [union_n]
        exact hps cd (by simp [hcd])
      rw [show ufProcess uf ((a, b) :: rest) = ufProcess (uf.union a b) rest from rfl,
        ih (uf.union a b) hinv' hps']
      constructor
      · refine eqvGen_lift ?_
        intro x y hxy
        rcases hxy with hσ | hmem
        · rcases (sameSet_union_iff uf hinv a b ha hb x y).1 hσ with h | ⟨h1, h2⟩ | ⟨h1, h2⟩
          · exact Relation.EqvGen.rel x y (Or.inl h)
          · exact Relation.EqvGen.trans x a y (Relation.EqvGen.rel x a (Or.inl h1))
              (Relation.EqvGen.trans a b y
                (Relation.EqvGen.rel a b (Or.inr (by simp)))
                (Relation.EqvGen.symm y b (Relation.EqvGen.rel y b (Or.inl h2))))
          · exact Relation.EqvGen.trans x b y (Relation.EqvGen.rel x b (Or.inl h1))
              (Relation.EqvGen.trans b a y
                (Relation.EqvGen.symm a b (Relation.EqvGen.rel a b (Or.inr (by simp))))
                (Relation.EqvGen.symm y a (Relation.EqvGen.rel y a (Or.inl h2))))
        · exact Relation.EqvGen.rel x y (Or.inr (List.mem_cons_of_mem _ hmem))
      · refine eqvGen_lift ?_
        intro x y hxy
        rcases hxy with hσ | hmem
        · exact Relation.EqvGen.rel x y
            (Or.inl ((sameSet_union_iff uf hinv a b ha hb x y).2 (Or.inl hσ)))
        · rcases List.mem_cons.1 hmem with he | hm
          · have hx : x = a := congrArg Prod.fst he
            have hy : y = b := congrArg Prod.snd he
            subst hx
            subst hy
            exact Relation.EqvGen.rel x y (Or.inl (sameSet_union_ab uf hinv x y ha hb))
          · exact Relation.EqvGen.rel x y (Or.inr hm)

theorem ufProcess_start_sameSet (ps : List (Nat × Nat)) (n : Nat)
    (hps : ∀ ab ∈ ps, ab.1 < n ∧ ab.2 < n) (i j : Nat) :
    (ufProcess (UnionFind.start n) ps).sameSet i j ↔
      Relation.EqvGen (fun x y => x = y ∨ (x, y) ∈ ps) i j := by
  rw [ufProcess_sameSet ps _ (ufInv_start n)
    (by simpa [UnionFind.start] using hps)]
  constructor <;> refine eqvGen_lift ?_ <;> intro x y hxy
  · rcases hxy with h | h
    · exact Relation.EqvGen.rel x y (Or.inl ((sameSet_start n x y).1 h))
    · exact Relation.EqvGen.rel x y (Or.inr h)
  · rcases hxy with h | h
    · exact Relation.EqvGen.rel x y (Or.inl ((sameSet_start n x y).2 h))
    · exact Relation.EqvGen.rel x y (Or.inr h)

theorem foldl_union_inner (i : Nat) (l : List Nat) (uf : UnionFind) :
    l.foldl (fun uf j => uf.union i j) uf = ufProcess uf (l.map (fun j => (i, j))) := by
  induction l generalizing uf with
  | nil => rfl
  | cons j js ih =>
      rw [List.foldl_cons, List.map_cons,
        show ufProcess uf ((i, j) :: js.map (fun j => (i, j))) =
          ufProcess (uf.union i j) (js.map (fun j => (i, j))) from rfl]
      exact ih _

theorem ufProcess_append (xs ys : List (Nat × Nat)) (uf : UnionFind) :
    ufProcess uf (xs ++ ys) = ufProcess (ufProcess uf xs) ys := by
  induction xs generalizing uf with
  | nil => rfl
  | cons ab rest ih =>
      show ufProcess (uf.union ab.1 ab.2) (rest ++ ys) =
        ufProcess (ufProcess (uf.union ab.1 ab.2) rest) ys
      exact ih _

theorem foldl_union_outer (l : List (Nat × List Nat)) (uf : UnionFind) :
    l.foldl (fun uf ic => ic.2.foldl (fun uf j => uf.union ic.1 j) uf) uf =
      ufProcess uf ((l.map (fun ic => ic.2.map (fun j => (ic.1, j)))).flatten) := by
  induction l generalizing uf with
  | nil => rfl
  | cons ic l ih =>
      rw [List.foldl_cons, List.map_cons, List.flatten_cons, ufProcess_append,
        ← foldl_union_inner ic.1 ic.2 uf]
      exact ih _

theorem compress_match_eq (st : MultiLayerCluster) :
    st.compress_match =
      (ufProcess (UnionFind.start st.match_all_layers.length)
        (pairsOf st.match_all_layers)).list_unions := by
  unfold MultiLayerCluster.compress_match pairsOf
  rw [foldl_union_outer]

theorem get?_eq_some_getD (m : List (List Nat)) (a : Nat) (h : a < m.length) :
    m.get? a = some (m.getD a []) := by
  rw [List.get?_eq_getElem?, List.getElem?_eq_getElem h, List.getD_eq_getElem?_getD,
    List.getElem?_eq_getElem h, Option.getD_some]

theorem mem_pairsOf (m : List (List Nat)) (a x : Nat) :
    (a, x) ∈ pairsOf m ↔ a < m.length ∧ x ∈ m.getD a [] := by
  unfold pairsOf
  rw [List.mem_flatten]
  constructor
  · rintro ⟨l, hl, hmem⟩
    obtain ⟨ic, hic, rfl⟩ := List.mem_map.1 hl
    obtain ⟨j, hj, hpair⟩ := List.mem_map.1 hmem
    have h1 : ic.1 = a := congrArg Prod.fst hpair
    have h2 : j = x := congrArg Prod.snd hpair
    subst h1
    subst h2
    have hg := List.mem_enum_iff_get?.1 hic
    have hlt : ic.1 < m.length := by
      by_contra hc
      rw [List.get?_eq_getElem?, List.getElem?_eq_none (by omega)] at hg
      exact Option.noConfusion hg
    refine ⟨hlt, ?_⟩
    rw [get?_eq_some_getD m ic.1 hlt] at hg
    rw [Option.some.inj hg]
    exact hj
  · rintro ⟨h1, h2⟩
    refine ⟨(m.getD a []).map (fun j => (a, j)), ?_, ?_⟩
    · refine List.mem_map.2 ⟨(a, m.getD a []), ?_, rfl⟩
      exact List.mem_enum_iff_get?.2 (get?_eq_some_getD m a h1)
    · exact List.mem_map.2 ⟨x, h2, rfl⟩

theorem mem_list_unions_iff (uf : UnionFind) (g : Nat × List Nat) :
    g ∈ uf.list_unions ↔
      g.1 ∈ (List.range uf.n).map uf.find ∧
        g.2 = (List.range uf.n).filter (fun i => decide (uf.find i = g.1)) := by
  unfold UnionFind.list_unions
  constructor
  · intro h
    obtain ⟨r, hr, rfl⟩ := List.mem_map.1 h
    exact ⟨List.mem_dedup.1 hr, rfl⟩
  · rintro ⟨h1, h2⟩
    refine List.mem_map.2 ⟨g.1, List.mem_dedup.2 h1, ?_⟩
    obtain ⟨r, mems⟩ := g
    simp only at h2 ⊢
    rw [h2]

theorem mem_group_iff (uf : UnionFind) (r x : Nat) :
    x ∈ (List.range uf.n).filter (fun i => decide (uf.find i = r)) ↔
      x < uf.n ∧ uf.find x = r := by
  simp [List.mem_filter]

theorem list_unions_complete (uf : UnionFind) (i : Nat) (hi : i < uf.n) :
    ∃ g, (g ∈ uf.list_unions ∧ i ∈ g.2) ∧
      ∀ g', g' ∈ uf.list_unions → i ∈ g'.2 → g' = g := by
  refine ⟨(uf.find i, (List.range uf.n).filter (fun k => decide (uf.find k = uf.find i))),
    ⟨?_, ?_⟩, ?_⟩
  · exact (mem_list_unions_iff uf _).2
      ⟨List.mem_map.2 ⟨i, List.mem_range.2 hi, rfl⟩, rfl⟩
  · exact (mem_group_iff uf (uf.find i) i).2 ⟨hi, rfl⟩
  · intro g' hg' hig'
    obtain ⟨h1, h2⟩ := (mem_list_unions_iff uf g').1 hg'
    rw [h2] at hig'
    have hfi : uf.find i = g'.1 := ((mem_group_iff uf g'.1 i).1 hig').2
    obtain ⟨r', mems'⟩ := g'
    simp only at h2 hfi ⊢
    rw [← hfi] at h2 ⊢
    rw [h2]

theorem inSameCluster_list_unions (uf : UnionFind) (i j : Nat) :
    inSameCluster uf.list_unions i j ↔
      i < uf.n ∧ j < uf.n ∧ uf.find i = uf.find j := by
  constructor
  · rintro ⟨g, hg, hi, hj⟩
    obtain ⟨h1, h2⟩ := (mem_list_unions_iff uf g).1 hg
    rw [h2] at hi hj
    obtain ⟨hi1, hi2⟩ := (mem_group_iff uf g.1 i).1 hi
    obtain ⟨hj1, hj2⟩ := (mem_group_iff uf g.1 j).1 hj
    exact ⟨hi1, hj1, hi2.trans hj2.symm⟩
  · rintro ⟨hi, hj, hij⟩
    refine ⟨(uf.find i, (List.range uf.n).filter (fun k => decide (uf.find k = uf.find i))),
      ?_, ?_, ?_⟩
    · exact (mem_list_unions_iff uf _).2
        ⟨List.mem_map.2 ⟨i, List.mem_range.2 hi, rfl⟩, rfl⟩
    · exact (mem_group_iff uf (uf.find i) i).2 ⟨hi, rfl⟩
    · exact (mem_group_iff uf (uf.find i) j).2 ⟨hj, hij.symm⟩

theorem list_unions_empty (uf : UnionFind) (h : uf.n = 0) : uf.list_unions = [] := by
  unfold UnionFind.list_unions
  rw [h]
  rfl

theorem list_unions_members_lt (uf : UnionFind) (g : Nat × List Nat)
    (hg : g ∈ uf.list_unions) (x : Nat) (hx : x ∈ g.2) : x < uf.n := by
  obtain ⟨_, h2⟩ := (mem_list_unions_iff uf g).1 hg
  rw [h2] at hx
  exact ((mem_group_iff uf g.1 x).1 hx).1

theorem mk'_spec (layers : List Layer) (st : MultiLayerCluster)
    (hst : MultiLayerCluster.mk' layers = Except.ok st) :
    st = ⟨layers, [], layers.flatten, startsFrom 0 layers, layers.map treeOf,
      layers.length⟩ := by
  have hu := (mk'_isOk_iff layers).1 ⟨st, hst⟩
  rw [mk'_ok layers hu] at hst
  exact (Except.ok.inj hst).symm

theorem mk'_error (layers : List Layer)
    (h : ¬ ∀ l ∈ layers, uniformDim l = true) :
    MultiLayerCluster.mk' layers = Except.error () := by
  unfold MultiLayerCluster.mk'
  rw [buildLoop_error layers 0 h]
  rfl

theorem cluster_all_layers_ok_inv (st : MultiLayerCluster) (s o : ℚ)
    (m : List (List Nat)) (st' : MultiLayerCluster)
    (h : st.cluster_all_layers s o = Except.ok (m, st')) :
    ∃ new, clusterLoop s o (st.layers_tree.zip st.layer_start_idx) = Except.ok new ∧
      m = st.match_all_layers ++ new ∧
      st' = ⟨st.layers, m, st.layers_combined, st.layer_start_idx, st.layers_tree,
        st.num_layers⟩ := by
  unfold MultiLayerCluster.cluster_all_layers at h
  obtain ⟨new, hnew, h2⟩ := bind_ok_inv h
  have h3 := Except.ok.inj h2
  have hm : st.match_all_layers ++ new = m := congrArg Prod.fst h3
  have hs : (⟨st.layers, st.match_all_layers ++ new, st.layers_combined,
      st.layer_start_idx, st.layers_tree, st.num_layers⟩ : MultiLayerCluster) = st' :=
    congrArg Prod.snd h3
  refine ⟨new, hnew, hm.symm, ?_⟩
  rw [← hs, hm]

theorem cluster_all_layers_of_loop (st : MultiLayerCluster) (s o : ℚ)
    (new : List (List Nat))
    (h : clusterLoop s o (st.layers_tree.zip st.layer_start_idx) = Except.ok new) :
    st.cluster_all_layers s o = Except.ok (st.match_all_layers ++ new,
      ⟨st.layers, st.match_all_layers ++ new, st.layers_combined, st.layer_start_idx,
        st.layers_tree, st.num_layers⟩) := by
  unfold MultiLayerCluster.cluster_all_layers
  rw [h, ok_bind]

theorem pairwise_of_mem {α : Type} {R : α → α → Prop} (l : List α)
    (h : ∀ x ∈ l, ∀ y ∈ l, R x y) : l.Pairwise R := by
  induction l with
  | nil => exact List.Pairwise.nil
  | cons a l ih =>
      refine List.Pairwise.cons ?_ (ih ?_)
      · intro y hy
        exact h a (by simp) y (by simp [hy])
      · intro x hx y hy
        exact h x (by simp [hx]) y (by simp [hy])

theorem totalPoints_take_le (layers : List Layer) (k : Nat) :
    totalPoints (layers.take k) ≤ totalPoints layers := by
  conv_rhs => rw [← List.take_append_drop k layers]
  rw [totalPoints_append]
  omega

theorem totalPoints_take_succ (layers : List Layer) (k : Nat) (h : k < layers.length) :
    totalPoints (layers.take (k + 1)) =
      totalPoints (layers.take k) + (layers.getD k []).length := by
  rw [List.take_succ, totalPoints_append]
  congr 1
  rw [List.getElem?_eq_getElem h]
  show totalPoints [layers[k]] = (layers.getD k []).length
  rw [List.getD_eq_getElem?_getD, List.getElem?_eq_getElem h, Option.getD_some]
  simp [totalPoints]

theorem clusterLoop_mem_lt (layers : List Layer) (s o : ℚ) (m : List (List Nat))
    (h : clusterLoop s o ((layers.map treeOf).zip (startsFrom 0 layers)) = Except.ok m) :
    ∀ g x, g < totalPoints layers → x ∈ m.getD g [] → x < totalPoints layers := by
  intro g x hg hx
  obtain ⟨li, lj, _hle, hlt, _b1, _b2, _b3, b4⟩ :=
    clusterLoop_bound layers 0 s o m h g x hg hx
  have h1 : sliceStart 0 layers lj + (layers.getD lj []).length ≤ totalPoints layers := by
    have := totalPoints_take_succ layers lj hlt
    have := totalPoints_take_le layers (lj + 1)
    simp only [sliceStart]
    omega
  omega

theorem zip_struct_append (xs ys : List Layer) (acc : Nat) :
    ((xs ++ ys).map treeOf).zip (startsFrom acc (xs ++ ys)) =
      ((xs.map treeOf).zip (startsFrom acc xs)) ++
        ((ys.map treeOf).zip (startsFrom (acc + totalPoints xs) ys)) := by
  induction xs generalizing acc with
  | nil => simp [startsFrom, totalPoints]
  | cons x xs ih =>
      simp only [List.cons_append, List.map_cons, startsFrom, List.zip_cons_cons,
        List.append_eq]
      rw [ih (acc + x.length)]
      have heq : acc + x.length + totalPoints xs = acc + totalPoints (x :: xs) := by
        rw [totalPoints_cons]
        omega
      rw [heq]

theorem runCluster_norm (layers : List Layer) (s o : ℚ)
    (hu : ∀ l ∈ layers, uniformDim l = true) :
    runCluster layers s o =
      clusterLoop s o ((layers.map treeOf).zip (startsFrom 0 layers)) := by
  unfold runCluster
  rw [mk'_ok layers hu, ok_bind]
  unfold MultiLayerCluster.cluster_all_layers
  dsimp only
  cases hloop : clusterLoop s o ((layers.map treeOf).zip (startsFrom 0 layers)) with
  | ok new => rw [ok_bind, ok_bind]; rfl
  | error u => cases u; rw [error_bind, error_bind]

theorem runPartition_norm (layers : List Layer) (s o : ℚ)
    (hu : ∀ l ∈ layers, uniformDim l = true) :
    runPartition layers s o =
      (clusterLoop s o ((layers.map treeOf).zip (startsFrom 0 layers))).map
        (fun new =>
          (ufProcess (UnionFind.start new.length) (pairsOf new)).list_unions) := by
  unfold runPartition
  rw [mk'_ok layers hu, ok_bind]
  unfold MultiLayerCluster.cluster_all_layers
  dsimp only
  cases hloop : clusterLoop s o ((layers.map treeOf).zip (startsFrom 0 layers)) with
  | ok new =>
      rw [ok_bind, ok_bind]
      show Except.ok (MultiLayerCluster.compress_match _) = _
      rw [compress_match_eq]
      rfl
  | error u => cases u; rw [error_bind, error_bind]; rfl

theorem queryBallLocal_neg (a b : Layer) (r : ℚ) (hr : r < 0) :
    ∀ e ∈ queryBallLocal a b r, e = [] := by
  intro e he
  obtain ⟨p, _hp, rfl⟩ := List.mem_map.1 he
  refine List.filter_eq_nil.2 ?_
  intro j _hj
  rw [withinBall_neg p (b.getD j []) r hr]
  simp

theorem innerLoop_neg_entries (rest : List (Option Layer × Nat)) (ti : Layer) (o : ℚ)
    (ho : o < 0) (mi m : List (List Nat)) (hmi : ∀ e ∈ mi, e = [])
    (h : innerLoop ti o mi rest = Except.ok m) : ∀ e ∈ m, e = [] := by
  induction rest generalizing mi with
  | nil =>
      simp only [innerLoop] at h
      cases h
      exact hmi
  | cons p rest ih =>
      obtain ⟨tree_j, sj⟩ := p
      have hstep : ∀ (mij : List (List Nat)), (∀ e ∈ mij, e = []) →
          ∀ e ∈ (List.range ti.length).map
            (fun k => mi.getD k [] ++ (shiftIdx mij sj).getD k []), e = [] := by
        intro mij hmij e he
        obtain ⟨k, _hk, rfl⟩ := List.mem_map.1 he
        have h1 : mi.getD k [] = [] := by
          by_cases hk' : k < mi.length
          · refine hmi _ ?_
            rw [List.getD_eq_getElem?_getD, List.getElem?_eq_getElem hk',
              Option.getD_some]
            exact mi.getElem_mem hk'
          · exact getD_eq_nil_of_le mi k (by omega)
        have h2 : (shiftIdx mij sj).getD k [] = [] := by
          by_cases hk' : k < mij.length
          · rw [shiftIdx_getD]
            have : mij.getD k [] = [] := by
              refine hmij _ ?_
              rw [List.getD_eq_getElem?_getD, List.getElem?_eq_getElem hk',
                Option.getD_some]
              exact mij.getElem_mem hk'
            rw [this]
            rfl
          · rw [shiftIdx_getD, getD_eq_nil_of_le mij k (by omega)]
            rfl
        rw [h1, h2]
        rfl
      cases tree_j with
      | some tj =>
          by_cases hd : layerDim ti = layerDim tj
          · rw [innerLoop_cons_some ti o mi tj sj rest hd] at h
            exact ih _ (hstep _ (queryBallLocal_neg ti tj o ho)) h
          · rw [innerLoop_cons_some_error ti o mi tj sj rest hd] at h
            exact Except.noConfusion h
      | none =>
          rw [innerLoop_cons_none ti o mi sj rest] at h
          exact ih _ (hstep _ (by
            intro e he
            exact List.eq_of_mem_replicate he)) h

theorem clusterLoop_neg_entries (ps : List (Option Layer × Nat)) (s o : ℚ)
    (hs : s < 0) (ho : o < 0) (m : List (List Nat))
    (h : clusterLoop s o ps = Except.ok m) : ∀ e ∈ m, e = [] := by
  induction ps generalizing m with
  | nil =>
      simp only [clusterLoop] at h
      cases h
      simp
  | cons p rest ih =>
      obtain ⟨tree_i, si⟩ := p
      cases tree_i with
      | some ti =>
          rw [clusterLoop_cons_some] at h
          obtain ⟨mi, hmi, h2⟩ := bind_ok_inv h
          obtain ⟨tail, htail, h3⟩ := bind_ok_inv h2
          cases h3
          have hinit : ∀ e ∈ shiftIdx (queryBallLocal ti ti s) si, e = [] := by
            intro e he
            obtain ⟨e0, he0, rfl⟩ := List.mem_map.1 he
            rw [queryBallLocal_neg ti ti s hs e0 he0]
            rfl
          have hmie := innerLoop_neg_entries rest ti o ho _ _ hinit hmi
          intro e he
          rcases List.mem_append.1 he with hl | hr
          · exact hmie e hl
          · exact ih _ htail e hr
      | none =>
          rw [clusterLoop_cons_none] at h
          exact ih _ h

theorem uniform_mem_length (l : Layer) (hu : uniformDim l = true) (p : Point)
    (hp : p ∈ l) : p.length = layerDim l := by
  cases l with
  | nil => simp at hp
  | cons q qs =>
      rcases List.mem_cons.1 hp with rfl | hp'
      · rfl
      · have := List.all_eq_true.1 hu p hp'
        simpa [layerDim] using this

theorem uniform_getD_length (l : Layer) (hu : uniformDim l = true) (k : Nat)
    (hk : k < l.length) : (l.getD k []).length = layerDim l := by
  refine uniform_mem_length l hu _ ?_
  rw [List.getD_eq_getElem?_getD, List.getElem?_eq_getElem hk, Option.getD_some]
  exact l.getElem_mem hk

theorem totalPoints_eq_zero (layers : List Layer) (h : ∀ l ∈ layers, l = []) :
    totalPoints layers = 0 := by
  refine List.sum_eq_zero ?_
  intro x hx
  obtain ⟨l, hl, rfl⟩ := List.mem_map.1 hx
  rw [h l hl]
  rfl

/-! ### The claims -/

/-- C1: for the `__main__` layers `[(1,1),(2,2),(3,3)]`,
`[(1.1,1.1),(0.9,0.9),(2.1,2.1),(3.2,3.2)]`, `[]`, `[(1.15,1.15),(3.1,3.1)]`
with `self_radius = other_radius = 0.2`, running `cluster_all_layers` once on
a fresh instance and then `compress_match` yields exactly three clusters
whose member sets, compared by membership of global indices and not by root
identity, are `{0, 3, 4, 7}`, `{1, 5}` and `{2, 6, 8}` — the indices of
`(1,1), (1.1,1.1), (0.9,0.9), (1.15,1.15)`, of `(2,2), (2.1,2.1)` and of
`(3,3), (3.2,3.2), (3.1,3.1)` in the concatenation of the layers. -/
theorem spec_c1 :
    ∃ part, runPartition scenarioLayers (1/5) (1/5) = Except.ok part ∧
      part.length = 3 ∧
      (part.map Prod.snd).Perm [[0, 3, 4, 7], [1, 5], [2, 6, 8]] :=
  ⟨[(5, [1, 5]), (7, [0, 3, 4, 7]), (8, [2, 6, 8])],
    by with_unfolding_all decide, by decide, by decide⟩

/-- C7: after one `cluster_all_layers` call on a fresh instance,
`compress_match` returns a partition of the global point indices: every index
below the total point count lies in exactly one cluster's member set
(completeness and disjointness), members never fall outside that range, and
when all layers are empty the partition is empty. -/
theorem spec_c7 (layers : List Layer) (st : MultiLayerCluster) (s o : ℚ)
    (m : List (List Nat)) (st' : MultiLayerCluster)
    (hmk : MultiLayerCluster.mk' layers = Except.ok st)
    (hcl : st.cluster_all_layers s o = Except.ok (m, st')) :
    (∀ i, i < totalPoints layers →
      ∃ g, (g ∈ st'.compress_match ∧ i ∈ g.2) ∧
        ∀ g', g' ∈ st'.compress_match → i ∈ g'.2 → g' = g) ∧
    (∀ g ∈ st'.compress_match, ∀ x ∈ g.2, x < totalPoints layers) ∧
    ((∀ l ∈ layers, l = []) → st'.compress_match = []) := by
  have hspec := mk'_spec layers st hmk
  subst hspec
  obtain ⟨new, hnew, hm, hst'⟩ := cluster_all_layers_ok_inv _ s o m st' hcl
  subst hst'
  have hmn : m = new := by simpa using hm
  subst hmn
  have hlen : m.length = totalPoints layers :=
    clusterLoop_length layers 0 s o m (by exact hnew)
  rw [compress_match_eq]
  have hn : (ufProcess (UnionFind.start m.length) (pairsOf m)).n = totalPoints layers := by
    rw [ufProcess_n]
    exact hlen
  refine ⟨?_, ?_, ?_⟩
  · intro i hi
    exact list_unions_complete _ i (by rw [hn]; exact hi)
  · intro g hg x hx
    have := list_unions_members_lt _ g hg x hx
    rwa [hn] at this
  · intro hall
    refine list_unions_empty _ ?_
    rw [hn]
    exact totalPoints_eq_zero layers hall

/-- C7 witness: the partition property at the concrete two-layer input. -/
theorem spec_c7_witness :
    (∀ i, i < totalPoints wLayers →
      ∃ g, (g ∈ wSt2.compress_match ∧ i ∈ g.2) ∧
        ∀ g', g' ∈ wSt2.compress_match → i ∈ g'.2 → g' = g) ∧
    (∀ g ∈ wSt2.compress_match, ∀ x ∈ g.2, x < totalPoints wLayers) ∧
    ((∀ l ∈ wLayers, l = []) → wSt2.compress_match = []) :=
  spec_c7 wLayers wSt 1 1 wMatches wSt2 (by with_unfolding_all decide)
    (by with_unfolding_all decide)

/-- C9: with non-negative radii, after one `cluster_all_layers` call on a
fresh instance every global point index appears in its own neighbour list
(self-distance zero is within `self_radius ≥ 0`), and every point is in the
same cluster as itself in the final partition — a point with no other
neighbours forms a singleton cluster. -/
theorem spec_c9 (layers : List Layer) (st : MultiLayerCluster) (s o : ℚ)
    (m : List (List Nat)) (st' : MultiLayerCluster)
    (hs : 0 ≤ s) (ho : 0 ≤ o)
    (hmk : MultiLayerCluster.mk' layers = Except.ok st)
    (hcl : st.cluster_all_layers s o = Except.ok (m, st')) :
    ∀ g, g < totalPoints layers →
      g ∈ m.getD g [] ∧ inSameCluster st'.compress_match g g := by
  have hspec := mk'_spec layers st hmk
  subst hspec
  obtain ⟨new, hnew, hm, hst'⟩ := cluster_all_layers_ok_inv _ s o m st' hcl
  subst hst'
  have hmn : m = new := by simpa using hm
  subst hmn
  have hlen : m.length = totalPoints layers :=
    clusterLoop_length layers 0 s o m (by exact hnew)
  intro g hg
  constructor
  · have := clusterLoop_self_mem layers 0 s o m hs (by exact hnew) g hg
    simpa using this
  · rw [compress_match_eq]
    have hn : (ufProcess (UnionFind.start m.length) (pairsOf m)).n =
        totalPoints layers := by
      rw [ufProcess_n]
      exact hlen
    exact (inSameCluster_list_unions _ g g).2
      ⟨by rw [hn]; exact hg, by rw [hn]; exact hg, rfl⟩

/-- C9 witness: self-membership and self-clustering of global index 0 at the
concrete two-layer input. -/
theorem spec_c9_witness :
    0 ∈ wMatches.getD 0 [] ∧ inSameCluster wSt2.compress_match 0 0 :=
  spec_c9 wLayers wSt 1 1 wMatches wSt2 (by norm_num) (by norm_num)
    (by with_unfolding_all decide) (by with_unfolding_all decide) 0 (by decide)

/-- C10: every index in a neighbour list produced by one `cluster_all_layers`
call on a fresh instance is a valid global index below the total point count
(so every union performed by `compress_match` stays within the union-find
universe), and it falls in the offset slice of the queried point's own layer
or of a later layer. -/
theorem spec_c10 (layers : List Layer) (st : MultiLayerCluster) (s o : ℚ)
    (m : List (List Nat)) (st' : MultiLayerCluster)
    (hmk : MultiLayerCluster.mk' layers = Except.ok st)
    (hcl : st.cluster_all_layers s o = Except.ok (m, st')) :
    ∀ g x, g < totalPoints layers → x ∈ m.getD g [] →
      x < totalPoints layers ∧
      ∃ li lj, li ≤ lj ∧ lj < layers.length ∧
        sliceStart 0 layers li ≤ g ∧
        g < sliceStart 0 layers li + (layers.getD li []).length ∧
        sliceStart 0 layers lj ≤ x ∧
        x < sliceStart 0 layers lj + (layers.getD lj []).length := by
  have hspec := mk'_spec layers st hmk
  subst hspec
  obtain ⟨new, hnew, hm, hst'⟩ := cluster_all_layers_ok_inv _ s o m st' hcl
  subst hst'
  have hmn : m = new := by simpa using hm
  subst hmn
  intro g x hg hx
  refine ⟨clusterLoop_mem_lt layers s o m (by exact hnew) g x hg hx, ?_⟩
  obtain ⟨li, lj, hle, hlt, b1, b2, b3, b4⟩ :=
    clusterLoop_bound layers 0 s o m (by exact hnew) g x hg hx
  rw [Nat.zero_add] at b1 b2
  exact ⟨li, lj, hle, hlt, b1, b2, b3, b4⟩

/-- C10 witness: validity of the neighbour index 0 of global point 0 at the
concrete two-layer input. -/
theorem spec_c10_witness :
    (0 : Nat) < totalPoints wLayers ∧
      ∃ li lj, li ≤ lj ∧ lj < wLayers.length ∧
        sliceStart 0 wLayers li ≤ 0 ∧
        0 < sliceStart 0 wLayers li + (wLayers.getD li []).length ∧
        sliceStart 0 wLayers lj ≤ 0 ∧
        0 < sliceStart 0 wLayers lj + (wLayers.getD lj []).length :=
  spec_c10 wLayers wSt 1 0 wMatches wSt2 (by with_unfolding_all decide)
    (by with_unfolding_all decide) 0 0 (by decide) (by decide)

/-- C4: `cluster_all_layers` appends to the stored match list rather than
replacing it: after a second call with the same radii on the same instance
(freshly constructed before the first call), the returned list is the first
result repeated twice — its length is `2 · n` for `n` the total point count
and its first `n` entries equal the first call's result. -/
theorem spec_c4 (layers : List Layer) (st : MultiLayerCluster) (s o : ℚ)
    (m1 : List (List Nat)) (st1 : MultiLayerCluster)
    (m2 : List (List Nat)) (st2 : MultiLayerCluster)
    (hmk : MultiLayerCluster.mk' layers = Except.ok st)
    (h1 : st.cluster_all_layers s o = Except.ok (m1, st1))
    (h2 : st1.cluster_all_layers s o = Except.ok (m2, st2)) :
    m2 = m1 ++ m1 ∧ m2.length = 2 * totalPoints layers ∧
      m2.take (totalPoints layers) = m1 := by
  have hspec := mk'_spec layers st hmk
  subst hspec
  obtain ⟨new1, hnew1, hm1, hst1⟩ := cluster_all_layers_ok_inv _ s o m1 st1 h1
  subst hst1
  have hm1' : m1 = new1 := by simpa using hm1
  obtain ⟨new2, hnew2, hm2, _hst2⟩ := cluster_all_layers_ok_inv _ s o m2 st2 h2
  have h12 : clusterLoop s o ((layers.map treeOf).zip (startsFrom 0 layers)) =
      Except.ok new2 := by exact hnew2
  rw [hnew1] at h12
  have hsame : new2 = new1 := (Except.ok.inj h12).symm
  have hm2' : m2 = m1 ++ m1 := by
    have hx : m2 = m1 ++ new2 := by simpa using hm2
    rw [hx, hsame, ← hm1']
  have hlen : m1.length = totalPoints layers := by
    rw [hm1']
    exact clusterLoop_length layers 0 s o new1 (by exact hnew1)
  refine ⟨hm2', ?_, ?_⟩
  · rw [hm2', List.length_append, hlen]
    omega
  · rw [hm2', ← hlen]
    exact List.take_left m1 m1

/-- C4 witness: two identical calls at the concrete two-layer input. -/
theorem spec_c4_witness :
    wMatches ++ wMatches = wMatches ++ wMatches ∧
      (wMatches ++ wMatches).length = 2 * totalPoints wLayers ∧
      (wMatches ++ wMatches).take (totalPoints wLayers) = wMatches :=
  spec_c4 wLayers wSt 1 1 wMatches wSt2 (wMatches ++ wMatches) wSt3
    (by with_unfolding_all decide) (by with_unfolding_all decide)
    (by with_unfolding_all decide)

theorem cluster_all_layers_error_of_loop (st : MultiLayerCluster) (s o : ℚ)
    (h : clusterLoop s o (st.layers_tree.zip st.layer_start_idx) = Except.error ()) :
    st.cluster_all_layers s o = Except.error () := by
  unfold MultiLayerCluster.cluster_all_layers
  rw [h]
  rfl

/-- C8: after construction from any sequence of layers, the start offsets
are monotonically non-decreasing, the offset of layer `i` equals the sum of
the sizes of layers `0..i-1`, and the concatenated point list's length
equals the total point count; `cluster_all_layers` leaves all these fields
unchanged, and `compress_match` is a pure function of the state (the source
only reads `self.match_all_layers`), so it mutates nothing. -/
theorem spec_c8 (layers : List Layer) (st : MultiLayerCluster)
    (hmk : MultiLayerCluster.mk' layers = Except.ok st) :
    st.layer_start_idx.Pairwise (· ≤ ·) ∧
    (∀ i, i < layers.length →
      st.layer_start_idx.getD i 0 = totalPoints (layers.take i)) ∧
    st.layers_combined.length = totalPoints layers ∧
    (∀ s o m st', st.cluster_all_layers s o = Except.ok (m, st') →
      st'.layer_start_idx = st.layer_start_idx ∧
      st'.layers_combined = st.layers_combined ∧
      st'.layers_tree = st.layers_tree) := by
  have hspec := mk'_spec layers st hmk
  subst hspec
  refine ⟨?_, ?_, ?_, ?_⟩
  · exact startsFrom_pairwise layers 0
  · intro i hi
    have := startsFrom_getD layers 0 i hi
    simpa using this
  · show layers.flatten.length = totalPoints layers
    rw [List.length_flatten]
    rfl
  · intro s o m st' hcl
    obtain ⟨new, _hnew, _hm, hst'⟩ := cluster_all_layers_ok_inv _ s o m st' hcl
    subst hst'
    exact ⟨rfl, rfl, rfl⟩

/-- C8 witness: the offset invariants at the concrete two-layer input. -/
theorem spec_c8_witness :
    wSt.layer_start_idx.Pairwise (· ≤ ·) ∧
    (∀ i, i < wLayers.length →
      wSt.layer_start_idx.getD i 0 = totalPoints (wLayers.take i)) ∧
    wSt.layers_combined.length = totalPoints wLayers ∧
    (∀ s o m st', wSt.cluster_all_layers s o = Except.ok (m, st') →
      st'.layer_start_idx = wSt.layer_start_idx ∧
      st'.layers_combined = wSt.layers_combined ∧
      st'.layers_tree = wSt.layers_tree) :=
  spec_c8 wLayers wSt (by with_unfolding_all decide)

/-- C5: an empty layer contributes zero entries to the adjacency list and no
error: the empty layer's own block is empty (`clusterLoop` skips an absent
tree), a cross-layer query against an absent index contributes nothing
(`innerLoop` skips a `None` tree without error), and both the match list and
the final partition with the empty layer present equal those with it removed
— the index relabelling is the identity, because the removed layer has size
zero and every other layer keeps its offset. -/
theorem spec_c5 (a b : List Layer) (s o : ℚ) :
    runCluster (a ++ [] :: b) s o = runCluster (a ++ b) s o ∧
    runPartition (a ++ [] :: b) s o = runPartition (a ++ b) s o ∧
    (∀ sj rest, clusterLoop s o ((none, sj) :: rest) = clusterLoop s o rest) ∧
    (∀ (ti : Layer) (mi : List (List Nat)) (sj : Nat) rest,
      mi.length = ti.length →
      innerLoop ti o mi ((none, sj) :: rest) = innerLoop ti o mi rest) := by
  have hskip : ∀ sj rest, clusterLoop s o ((none, sj) :: rest) = clusterLoop s o rest :=
    fun sj rest => clusterLoop_cons_none s o sj rest
  have hinner : ∀ (ti : Layer) (mi : List (List Nat)) (sj : Nat) rest,
      mi.length = ti.length →
      innerLoop ti o mi ((none, sj) :: rest) = innerLoop ti o mi rest := by
    intro ti mi sj rest hlen
    simpa using innerLoop_skip_none [] rest ti o mi sj hlen
  by_cases hu : ∀ l ∈ a ++ [] :: b, uniformDim l = true
  · have hu2 : ∀ l ∈ a ++ b, uniformDim l = true := by
      intro l hl
      apply hu
      rcases List.mem_append.1 hl with h | h
      · exact List.mem_append_left _ h
      · exact List.mem_append_right _ (List.mem_cons_of_mem _ h)
    have hZ : clusterLoop s o (((a ++ [] :: b).map treeOf).zip
          (startsFrom 0 (a ++ [] :: b))) =
        clusterLoop s o (((a ++ b).map treeOf).zip (startsFrom 0 (a ++ b))) := by
      rw [zip_struct_append a ([] :: b) 0, zip_struct_append a b 0]
      have h1 : ((([] : Layer) :: b).map treeOf).zip
            (startsFrom (0 + totalPoints a) ([] :: b)) =
          (none, 0 + totalPoints a) ::
            ((b.map treeOf).zip (startsFrom (0 + totalPoints a + 0) b)) := by
        simp only [List.map_cons, startsFrom, List.zip_cons_cons]
        rfl
      rw [h1, clusterLoop_skip_none]
      simp only [Nat.add_zero]
    refine ⟨?_, ?_, hskip, hinner⟩
    · rw [runCluster_norm _ s o hu, runCluster_norm _ s o hu2, hZ]
    · rw [runPartition_norm _ s o hu, runPartition_norm _ s o hu2, hZ]
  · have hu2 : ¬ ∀ l ∈ a ++ b, uniformDim l = true := by
      intro hc
      apply hu
      intro l hl
      rcases List.mem_append.1 hl with h | h
      · exact hc l (List.mem_append_left _ h)
      · rcases List.mem_cons.1 h with rfl | h'
        · rfl
        · exact hc l (List.mem_append_right _ h')
    refine ⟨?_, ?_, hskip, hinner⟩
    · unfold runCluster
      rw [mk'_error _ hu, mk'_error _ hu2]
    · unfold runPartition
      rw [mk'_error _ hu, mk'_error _ hu2]

/-- C5 witness: the empty-layer equivalences at a concrete input. -/
theorem spec_c5_witness :
    runCluster ([[[0, 0]]] ++ [] :: [[[1, 1]]]) 1 1 =
        runCluster ([[[0, 0]]] ++ [[[1, 1]]]) 1 1 ∧
    runPartition ([[[0, 0]]] ++ [] :: [[[1, 1]]]) 1 1 =
        runPartition ([[[0, 0]]] ++ [[[1, 1]]]) 1 1 ∧
    (∀ sj rest, clusterLoop 1 1 ((none, sj) :: rest) = clusterLoop 1 1 rest) ∧
    (∀ (ti : Layer) (mi : List (List Nat)) (sj : Nat) rest,
      mi.length = ti.length →
      innerLoop ti 1 mi ((none, sj) :: rest) = innerLoop ti 1 mi rest) :=
  spec_c5 [[[0, 0]]] [[[1, 1]]] 1 1

/-- C2 counterexample: with both radii negative, `cluster_all_layers` on a
fresh two-point instance does not fail fast — it runs to completion and
returns an adjacency list (all neighbour lists empty), contradicting the
claim that a negative radius is reported as a configuration error before any
adjacency output is produced. -/
theorem spec_c2_counterexample :
    runCluster [[[0, 0]], [[5, 5]]] (-1) (-1) = Except.ok [[], []] := by
  with_unfolding_all decide

/-- C2 amended: `cluster_all_layers` performs no radius validation.  On
dimensionally consistent layers it returns normally for every radius pair;
negative radii are accepted and match nothing — not even a point with itself
— so every neighbour list comes back empty; a zero radius is legal and a
radius-zero query matches exactly the coincident points. -/
theorem spec_c2_amended (layers : List Layer) (st : MultiLayerCluster) (s o : ℚ)
    (hmk : MultiLayerCluster.mk' layers = Except.ok st)
    (hdims : ∀ la ∈ layers, ∀ lb ∈ layers, la ≠ [] → lb ≠ [] →
      layerDim la = layerDim lb) :
    (∃ m st', st.cluster_all_layers s o = Except.ok (m, st')) ∧
    (s < 0 → o < 0 → ∀ m st', st.cluster_all_layers s o = Except.ok (m, st') →
      ∀ e ∈ m, e = []) ∧
    (∀ aL bL : Layer, uniformDim aL = true → uniformDim bL = true →
      layerDim aL = layerDim bL → ∀ k j, k < aL.length →
      (j ∈ (queryBallLocal aL bL 0).getD k [] ↔
        j < bL.length ∧ aL.getD k [] = bL.getD j [])) := by
  have hspec := mk'_spec layers st hmk
  subst hspec
  have hpair : ((layers.map treeOf).zip (startsFrom 0 layers)).Pairwise
      (fun p q => ∀ ti tj, p.1 = some ti → q.1 = some tj →
        layerDim ti = layerDim tj) := by
    refine pairwise_of_mem _ ?_
    intro x hx y hy ti tj hxi hyj
    have hx' : (some ti, x.2) ∈ (layers.map treeOf).zip (startsFrom 0 layers) := by
      rwa [← hxi, Prod.mk.eta]
    have hy' : (some tj, y.2) ∈ (layers.map treeOf).zip (startsFrom 0 layers) := by
      rwa [← hyj, Prod.mk.eta]
    obtain ⟨li, hli, hgi, hpi, _⟩ := mem_zip_struct layers 0 ti x.2 hx'
    obtain ⟨lj, hlj, hgj, hpj, _⟩ := mem_zip_struct layers 0 tj y.2 hy'
    have hmi : ti ∈ layers := by
      rw [← hgi, List.getD_eq_getElem?_getD, List.getElem?_eq_getElem hli,
        Option.getD_some]
      exact layers.getElem_mem hli
    have hmj : tj ∈ layers := by
      rw [← hgj, List.getD_eq_getElem?_getD, List.getElem?_eq_getElem hlj,
        Option.getD_some]
      exact layers.getElem_mem hlj
    exact hdims ti hmi tj hmj (by
        intro hnil
        rw [hnil] at hpi
        simp at hpi)
      (by
        intro hnil
        rw [hnil] at hpj
        simp at hpj)
  refine ⟨?_, ?_, ?_⟩
  · obtain ⟨mm, hmm⟩ := clusterLoop_ok_of_dims s o _ hpair
    exact ⟨_, _, cluster_all_layers_of_loop _ s o mm (by exact hmm)⟩
  · intro hs ho m st' hcl
    obtain ⟨new, hnew, hm, _hst'⟩ := cluster_all_layers_ok_inv _ s o m st' hcl
    have hmn : m = new := by simpa using hm
    subst hmn
    exact clusterLoop_neg_entries _ s o hs ho m (by exact hnew)
  · intro aL bL hua hub hd k j hk
    rw [mem_queryBallLocal_getD aL bL 0 k j hk]
    constructor
    · rintro ⟨hj, hw⟩
      refine ⟨hj, ?_⟩
      have hlen : (aL.getD k []).length = (bL.getD j []).length := by
        rw [uniform_getD_length aL hua k hk, uniform_getD_length bL hub j hj, hd]
      exact (dist2_eq_zero_iff _ _ hlen).1 ((withinBall_zero_iff _ _).1 hw)
    · rintro ⟨hj, heq⟩
      refine ⟨hj, ?_⟩
      rw [heq]
      exact withinBall_self _ 0 (le_refl 0)

/-- C2 amended witness: the negative-radius and zero-radius behaviour at the
concrete two-layer input. -/
theorem spec_c2_amended_witness :
    (∃ m st', wSt.cluster_all_layers (-1) (-1) = Except.ok (m, st')) ∧
    ((-1 : ℚ) < 0 → (-1 : ℚ) < 0 →
      ∀ m st', wSt.cluster_all_layers (-1) (-1) = Except.ok (m, st') →
      ∀ e ∈ m, e = []) ∧
    (∀ aL bL : Layer, uniformDim aL = true → uniformDim bL = true →
      layerDim aL = layerDim bL → ∀ k j, k < aL.length →
      (j ∈ (queryBallLocal aL bL 0).getD k [] ↔
        j < bL.length ∧ aL.getD k [] = bL.getD j [])) :=
  spec_c2_amended wLayers wSt (-1) (-1) (by with_unfolding_all decide)
    (by decide)

/-- C3 counterexample: with layers `[(1,1)]` and `[(1,1,1)]` — internally
rectangular but of different dimensionality across layers — construction
succeeds (both spatial indexes are built), and the mismatch is first
discovered during a radius query: `cluster_all_layers` raises.  This
contradicts the claim that mismatched dimensionality across layers is
surfaced before any spatial index is built and never during a later query. -/
theorem spec_c3_counterexample :
    (∃ st, MultiLayerCluster.mk' [[[1, 1]], [[1, 1, 1]]] = Except.ok st) ∧
    runCluster [[[1, 1]], [[1, 1, 1]]] 1 1 = Except.error () := by
  constructor
  · exact ⟨_, mk'_ok _ (by decide)⟩
  · with_unfolding_all decide

/-- C3 amended: a dimensionality mismatch inside a single layer is detected
at construction (the KDTree build rejects a ragged layer), so construction
succeeds exactly when every layer is internally rectangular; a mismatch
across two nonempty layers is not detected at construction and first
surfaces as an error during a cross-layer radius query inside
`cluster_all_layers`. -/
theorem spec_c3_amended (layers : List Layer) :
    ((∃ st, MultiLayerCluster.mk' layers = Except.ok st) ↔
      ∀ l ∈ layers, uniformDim l = true) ∧
    (∀ (pre mid post : List Layer) (la lb : Layer),
      layers = pre ++ (la :: (mid ++ (lb :: post))) → la ≠ [] → lb ≠ [] →
      layerDim la ≠ layerDim lb →
      ∀ st s o, MultiLayerCluster.mk' layers = Except.ok st →
        st.cluster_all_layers s o = Except.error ()) := by
  refine ⟨mk'_isOk_iff layers, ?_⟩
  intro pre mid post la lb hsplit hla hlb hd st s o hmk
  have hspec := mk'_spec layers st hmk
  subst hspec
  subst hsplit
  refine cluster_all_layers_error_of_loop _ s o ?_
  show clusterLoop s o (((pre ++ (la :: (mid ++ (lb :: post)))).map treeOf).zip
    (startsFrom 0 (pre ++ (la :: (mid ++ (lb :: post)))))) = Except.error ()
  rw [zip_struct_append pre (la :: (mid ++ (lb :: post))) 0]
  have h1 : (((la :: (mid ++ (lb :: post)))).map treeOf).zip
        (startsFrom (0 + totalPoints pre) (la :: (mid ++ (lb :: post)))) =
      (some la, 0 + totalPoints pre) ::
        (((mid ++ (lb :: post)).map treeOf).zip
          (startsFrom (0 + totalPoints pre + la.length) (mid ++ (lb :: post)))) := by
    simp only [List.map_cons, startsFrom, List.zip_cons_cons, List.append_eq]
    rw [treeOf, if_pos (by
      cases la with
      | nil => exact absurd rfl hla
      | cons p ps => simp)]
  rw [h1]
  refine clusterLoop_error_of_mismatch s o _ _ la (0 + totalPoints pre) lb
    (0 + totalPoints pre + la.length + totalPoints mid) ?_ hd
  rw [zip_struct_append mid (lb :: post) (0 + totalPoints pre + la.length)]
  refine List.mem_append_right _ ?_
  have h2 : ((lb :: post).map treeOf).zip
        (startsFrom (0 + totalPoints pre + la.length + totalPoints mid) (lb :: post)) =
      (some lb, 0 + totalPoints pre + la.length + totalPoints mid) ::
        ((post.map treeOf).zip
          (startsFrom (0 + totalPoints pre + la.length + totalPoints mid + lb.length)
            post)) := by
    simp only [List.map_cons, startsFrom, List.zip_cons_cons]
    rw [treeOf, if_pos (by
      cases lb with
      | nil => exact absurd rfl hlb
      | cons p ps => simp)]
  rw [h2]
  exact List.mem_cons_self _ _

/-- C6: clustering is radius-monotonic: with the layers fixed and
non-negative radii `s1 ≤ s2` and `o1 ≤ o2`, any two points that share a
cluster in the partition computed with the smaller radii also share a
cluster in the partition computed with the larger radii — increasing either
radius never splits an existing cluster. -/
theorem spec_c6 (layers : List Layer) (st : MultiLayerCluster)
    (s1 o1 s2 o2 : ℚ) (m1 : List (List Nat)) (st1 : MultiLayerCluster)
    (m2 : List (List Nat)) (st2 : MultiLayerCluster)
    (hs0 : 0 ≤ s1) (hs : s1 ≤ s2) (ho0 : 0 ≤ o1) (ho : o1 ≤ o2)
    (hmk : MultiLayerCluster.mk' layers = Except.ok st)
    (h1 : st.cluster_all_layers s1 o1 = Except.ok (m1, st1))
    (h2 : st.cluster_all_layers s2 o2 = Except.ok (m2, st2)) :
    ∀ i j, inSameCluster st1.compress_match i j →
      inSameCluster st2.compress_match i j := by
  have hspec := mk'_spec layers st hmk
  subst hspec
  obtain ⟨new1, hnew1, hm1, hst1⟩ := cluster_all_layers_ok_inv _ s1 o1 m1 st1 h1
  subst hst1
  obtain ⟨new2, hnew2, hm2, hst2⟩ := cluster_all_layers_ok_inv _ s2 o2 m2 st2 h2
  subst hst2
  have hm1' : m1 = new1 := by simpa using hm1
  have hm2' : m2 = new2 := by simpa using hm2
  have hn1 : clusterLoop s1 o1 ((layers.map treeOf).zip (startsFrom 0 layers)) =
      Except.ok m1 := by
    rw [hm1']
    exact hnew1
  have hn2 : clusterLoop s2 o2 ((layers.map treeOf).zip (startsFrom 0 layers)) =
      Except.ok m2 := by
    rw [hm2']
    exact hnew2
  have hlen1 : m1.length = totalPoints layers := clusterLoop_length layers 0 s1 o1 m1 hn1
  have hlen2 : m2.length = totalPoints layers := clusterLoop_length layers 0 s2 o2 m2 hn2
  have hsub : ∀ k x, x ∈ m1.getD k [] → x ∈ m2.getD k [] :=
    clusterLoop_subset _ s1 o1 s2 o2 hs ho m1 m2 hn1 hn2
  have hb1 : ∀ ab ∈ pairsOf m1, ab.1 < m1.length ∧ ab.2 < m1.length := by
    intro ab hab
    have hab' : (ab.1, ab.2) ∈ pairsOf m1 := by rwa [Prod.mk.eta]
    obtain ⟨hx1, hx2⟩ := (mem_pairsOf m1 ab.1 ab.2).1 hab'
    refine ⟨hx1, ?_⟩
    have := clusterLoop_mem_lt layers s1 o1 m1 hn1 ab.1 ab.2 (by omega) hx2
    omega
  have hb2 : ∀ ab ∈ pairsOf m2, ab.1 < m2.length ∧ ab.2 < m2.length := by
    intro ab hab
    have hab' : (ab.1, ab.2) ∈ pairsOf m2 := by rwa [Prod.mk.eta]
    obtain ⟨hx1, hx2⟩ := (mem_pairsOf m2 ab.1 ab.2).1 hab'
    refine ⟨hx1, ?_⟩
    have := clusterLoop_mem_lt layers s2 o2 m2 hn2 ab.1 ab.2 (by omega) hx2
    omega
  intro i j hij
  have hij1 : inSameCluster
      (ufProcess (UnionFind.start m1.length) (pairsOf m1)).list_unions i j := by
    rw [compress_match_eq] at hij
    exact hij
  obtain ⟨hi, hj, hfind⟩ := (inSameCluster_list_unions _ i j).1 hij1
  have hnn1 : (ufProcess (UnionFind.start m1.length) (pairsOf m1)).n = m1.length := by
    rw [ufProcess_n]
    rfl
  rw [hnn1] at hi hj
  have hsame1 : (ufProcess (UnionFind.start m1.length) (pairsOf m1)).sameSet i j := hfind
  have hgen1 := (ufProcess_start_sameSet (pairsOf m1) m1.length hb1 i j).1 hsame1
  have hgen2 : Relation.EqvGen (fun x y => x = y ∨ (x, y) ∈ pairsOf m2) i j := by
    refine eqvGen_lift ?_ hgen1
    intro x y hxy
    rcases hxy with h | h
    · exact Relation.EqvGen.rel x y (Or.inl h)
    · obtain ⟨hx1, hx2⟩ := (mem_pairsOf m1 x y).1 h
      exact Relation.EqvGen.rel x y
        (Or.inr ((mem_pairsOf m2 x y).2 ⟨by omega, hsub x y hx2⟩))
  have hsame2 := (ufProcess_start_sameSet (pairsOf m2) m2.length hb2 i j).2 hgen2
  have hout : inSameCluster
      (ufProcess (UnionFind.start m2.length) (pairsOf m2)).list_unions i j := by
    refine (inSameCluster_list_unions _ i j).2 ⟨?_, ?_, hsame2⟩
    · rw [ufProcess_n]
      show i < m2.length
      omega
    · rw [ufProcess_n]
      show j < m2.length
      omega
  rw [compress_match_eq]
  exact hout

/-- C6 witness: point 0 stays clustered with itself when the radii grow from
1 to 2 on the concrete two-layer input. -/
theorem spec_c6_witness :
    inSameCluster wSt2big.compress_match 0 0 :=
  spec_c6 wLayers wSt 1 1 2 2 wMatches wSt2 wMatchesBig wSt2big
    (by norm_num) (by norm_num) (by norm_num) (by norm_num)
    (by with_unfolding_all decide) (by with_unfolding_all decide)
    (by with_unfolding_all decide) 0 0 (by unfold inSameCluster; decide)

/-- C3 amended witness: the construction iff and the query-time error at the
concrete mismatched input. -/
theorem spec_c3_amended_witness :
    ((∃ st, MultiLayerCluster.mk' [[[1, 1]], [[1, 1, 1]]] = Except.ok st) ↔
      ∀ l ∈ [[[1, 1]], ([[1, 1, 1]] : Layer)], uniformDim l = true) ∧
    (∀ (pre mid post : List Layer) (la lb : Layer),
      [[[1, 1]], ([[1, 1, 1]] : Layer)] = pre ++ (la :: (mid ++ (lb :: post))) →
      la ≠ [] → lb ≠ [] → layerDim la ≠ layerDim lb →
      ∀ st s o, MultiLayerCluster.mk' [[[1, 1]], ([[1, 1, 1]] : Layer)] = Except.ok st →
        st.cluster_all_layers s o = Except.error ()) :=
  spec_c3_amended [[[1, 1]], [[1, 1, 1]]]

end MLCluster
